import Mathlib

/-!
Verification development for the `rust.me` MAL interpreter
(`src/impls/rust.me/src/`): a shallow embedding of its value model
(`types.rs`), errors (`errors.rs`), environment (`env.rs`), reader
(`reader.rs`), printer (`printer.rs`), core namespace (`core.rs`) and the
step-9 evaluator (`step9_try.rs`), together with theorems about the
behaviour of those functions.

Modelling conventions:
- Rust `i64` is modelled as `Int` (no claim here involves overflow);
  `i64` division truncates toward zero, which is `Int.tdiv`.
- Rust panics (out-of-bounds indexing, `todo!()`, division by zero) are
  modelled as `none` / a `panic` outcome, distinct from `Err` results.
- `Rc`/`RefCell` sharing is modelled by an explicit store: environments and
  atom cells are identified by indices into a `Store`.
- Functions that recurse through the store (or through the AST of a nested
  inductive) take an explicit fuel argument, structurally decreasing, so
  that everything reduces in the kernel; theorems quantify over sufficient
  fuel.  Running out of fuel gives a designated default / `timeout` value
  that is unreachable for the fuel bounds used.
-/

set_option maxRecDepth 100000
set_option maxHeartbeats 2000000

namespace Mal

/-- Character constants used by the reader/printer, written via code points
to keep the source ASCII-clean. -/
def dquoteC : Char := Char.ofNat 34

/-- Single quote character. -/
def squoteC : Char := Char.ofNat 39

/-- Backslash character. -/
def bslashC : Char := Char.ofNat 92

/-- Backtick character. -/
def btickC : Char := Char.ofNat 96

/-- Left curly brace character. -/
def lbraceC : Char := Char.ofNat 123

/-- Right curly brace character. -/
def rbraceC : Char := Char.ofNat 125

/-- The keyword sentinel U+029E (`core.rs`: `KEYWORD_PREFIX = "\u{29e}"`),
as a character. -/
def kwChar : Char := Char.ofNat 0x29E

/-- `core.rs` `KEYWORD_PREFIX`: the one-character sentinel string. -/
def KEYWORD_PREFIX : String := String.mk [kwChar]

/-- Identifiers for the host functions of `core.rs` that this development
needs (`MalType::Function` holds a Rust `fn` pointer; we name the ones the
claims exercise). -/
inductive Builtin where
  | add | sub | mul | div | eqOp | ltOp | leOp | gtOp | geOp | countOp
deriving DecidableEq, Repr

/-- `types.rs` `MalType`.  `List`/`Vector`/`HashMap` carry their meta value
(`Rc<MalType>` in Rust, default `Nil`).  The `HashMap` variant models
`BTreeMap<MalType, MalType>` as its sorted list of key/value pairs (sorted
by the derived `Ord`, see `cmpM`).  `MalFunction`'s `eval` function pointer
is always the interpreter's `eval` and is dropped; its `Rc<Env>` is an
environment index into the store.  `Atom`'s `Rc<RefCell<MalType>>` is an
atom-cell index into the store. -/
inductive MalType where
  | nil
  | bool (b : Bool)
  | int (i : Int)
  | str (s : String)
  | symbol (s : String)
  | list (elems : List MalType) (meta : MalType)
  | vector (elems : List MalType) (meta : MalType)
  | hashMap (pairs : List (MalType × MalType)) (meta : MalType)
  | function (f : Builtin)
  | malFunction (params : MalType) (ast : MalType) (envId : Nat) (isMacro : Bool)
  | atom (cellId : Nat)

/-- `errors.rs` `MalErr`.  The `throw` variant is used by `core.rs`
(`MalErr::Throw(a[0])` for the `throw` builtin) and `step9_try.rs`
(`try*` payload) but is missing from the `errors.rs` in `src/`;
it is modelled from the spec (UserThrow carrying the thrown value). -/
inductive MalErr where
  | readErr (m : String)
  | symbolNotFound (s : String)
  | invalidLet (m : String)
  | invalidDo (m : String)
  | functionErr (m : String)
  | malFunctionErr (m : String)
  | generic (m : String)
  | throw (v : MalType)

/-- `impl Display for MalErr` (`errors.rs`).  The `throw` arm does not
exist in `errors.rs` under `src/`; it is never reached by the evaluator
(`try*` stringifies only non-`Throw` errors), and is given a placeholder. -/
def errToString : MalErr → String
  | .readErr m => "Read error: " ++ m
  | .symbolNotFound s => s ++ " not found"
  | .invalidLet m => "Invalid let* construction: " ++ m
  | .invalidDo m => "Invalid do construction: " ++ m
  | .functionErr m => "Does not compute: " ++ m
  | .malFunctionErr m => "Invalid fn* construction: " ++ m
  | .generic m => "Error: " ++ m
  | .throw _ => ""

/-- Elementwise list equality (same length) for a given element
equality — `Vec<MalType>` `PartialEq`. -/
def eqListWith (eq1 : MalType → MalType → Bool) : List MalType → List MalType → Bool
  | [], [] => true
  | x :: xs, y :: ys => eq1 x y && eqListWith eq1 xs ys
  | _, _ => false

/-- Pairwise equality of sorted (key, value) sequences for a given
element equality — `BTreeMap` `PartialEq`. -/
def eqPairsWith (eq1 : MalType → MalType → Bool) :
    List (MalType × MalType) → List (MalType × MalType) → Bool
  | [], [] => true
  | (k1, v1) :: t1, (k2, v2) :: t2 => eq1 k1 k2 && eq1 v1 v2 && eqPairsWith eq1 t1 t2
  | _, _ => false

/-- `impl PartialEq for MalType` (`types.rs` lines 38-55), with fuel (one
unit per nesting level).  List/vector compare cross-variant;
`MalFunction` (and, through the final catch-all `_ => false`, `Function`
and `Atom`) are never equal. -/
def malEq : Nat → MalType → MalType → Bool
  | 0, _, _ => false
  | f+1, a, b =>
    match a, b with
    | .nil, .nil => true
    | .bool x, .bool y => x == y
    | .int x, .int y => x == y
    | .str x, .str y => x == y
    | .symbol x, .symbol y => x == y
    | .list x _, .list y _ => eqListWith (malEq f) x y
    | .vector x _, .vector y _ => eqListWith (malEq f) x y
    | .list x _, .vector y _ => eqListWith (malEq f) x y
    | .vector x _, .list y _ => eqListWith (malEq f) x y
    | .hashMap x _, .hashMap y _ => eqPairsWith (malEq f) x y
    | _, _ => false

/-- Variant index of the derived `Ord` on `MalType` (declaration order in
`types.rs`). -/
def vIdx : MalType → Nat
  | .nil => 0
  | .bool _ => 1
  | .int _ => 2
  | .str _ => 3
  | .symbol _ => 4
  | .list _ _ => 5
  | .vector _ _ => 6
  | .hashMap _ _ => 7
  | .function _ => 8
  | .malFunction _ _ _ _ => 9
  | .atom _ => 10

/-- Comparison of natural numbers as an `Ordering` (kernel-reducible). -/
def cmpNat (a b : Nat) : Ordering :=
  if a < b then .lt else if b < a then .gt else .eq

/-- Comparison of integers as an `Ordering` (kernel-reducible). -/
def cmpInt (a b : Int) : Ordering :=
  if a < b then .lt else if b < a then .gt else .eq

/-- `Bool` ordering: `false < true` (Rust `bool` `Ord`). -/
def cmpBool : Bool → Bool → Ordering
  | false, false => .eq
  | false, true => .lt
  | true, false => .gt
  | true, true => .eq

/-- Rust `String` ordering: lexicographic on the character sequence
(byte-lexicographic on UTF-8, which coincides with code-point order). -/
def cmpChars : List Char → List Char → Ordering
  | [], [] => .eq
  | [], _ :: _ => .lt
  | _ :: _, [] => .gt
  | x :: xs, y :: ys => (cmpNat x.toNat y.toNat).then (cmpChars xs ys)

/-- Lexicographic list comparison for a given element comparison —
`Vec<T>` `Ord` (shorter prefix first). -/
def cmpLWith (c : MalType → MalType → Ordering) : List MalType → List MalType → Ordering
  | [], [] => .eq
  | [], _ :: _ => .lt
  | _ :: _, [] => .gt
  | x :: xs, y :: ys => (c x y).then (cmpLWith c xs ys)

/-- Lexicographic comparison of sorted (key, value) sequences —
`BTreeMap` `Ord`. -/
def cmpPWith (c : MalType → MalType → Ordering) :
    List (MalType × MalType) → List (MalType × MalType) → Ordering
  | [], [] => .eq
  | [], _ :: _ => .lt
  | _ :: _, [] => .gt
  | (k1, v1) :: t1, (k2, v2) :: t2 => ((c k1 k2).then (c v1 v2)).then (cmpPWith c t1 t2)

/-- The derived `Ord` on `MalType` (`#[derive(Ord, PartialOrd)]`,
`types.rs` line 10): variant order first, then contents field by field;
fueled by nesting depth.  Two deliberate deviations where Rust compares
unobservable data: `Function` compares the builtin identifier (Rust
compares `fn`-pointer addresses), and `MalFunction`/`Atom` compare the
environment/cell index (Rust compares the pointed-to `Env` / `RefCell`
contents).  No claim orders functions, closures or atoms. -/
def cmpM : Nat → MalType → MalType → Ordering
  | 0, _, _ => .eq
  | f+1, a, b =>
    match a, b with
    | .nil, .nil => .eq
    | .bool x, .bool y => cmpBool x y
    | .int x, .int y => cmpInt x y
    | .str x, .str y => cmpChars x.data y.data
    | .symbol x, .symbol y => cmpChars x.data y.data
    | .list xs xm, .list ys ym => (cmpLWith (cmpM f) xs ys).then (cmpM f xm ym)
    | .vector xs xm, .vector ys ym => (cmpLWith (cmpM f) xs ys).then (cmpM f xm ym)
    | .hashMap xs xm, .hashMap ys ym => (cmpPWith (cmpM f) xs ys).then (cmpM f xm ym)
    | .function x, .function y => cmpNat x.toCtorIdx y.toCtorIdx
    | .malFunction p1 a1 e1 m1, .malFunction p2 a2 e2 m2 =>
        ((cmpM f p1 p2).then (cmpM f a1 a2)).then ((cmpNat e1 e2).then (cmpBool m1 m2))
    | .atom c1, .atom c2 => cmpNat c1 c2
    | _, _ => cmpNat (vIdx a) (vIdx b)

/-- Decimal digit character for a digit value. -/
def digitChar (d : Nat) : Char := Char.ofNat (48 + d)

/-- Decimal digits (most significant first) of a natural number, fueled. -/
def natDigitsF : Nat → Nat → List Char
  | 0, _ => []
  | f+1, n => if n < 10 then [digitChar n] else natDigitsF f (n / 10) ++ [digitChar (n % 10)]

/-- Decimal representation of a natural number. -/
def natRepr (n : Nat) : List Char := natDigitsF (n + 1) n

/-- Rust `i64` `Display`: optional minus sign, then decimal digits;
used by `MalType::Int`'s arm of `pr_str`. -/
def intRepr (i : Int) : String :=
  if i < 0 then String.mk ('-' :: natRepr i.natAbs) else String.mk (natRepr i.natAbs)

/-- Is `c` an ASCII decimal digit? -/
def isDigitC (c : Char) : Bool := 48 ≤ c.toNat && c.toNat ≤ 57

/-- Does the token match `INT_RE = ^-?[0-9]+$` (`reader.rs`)? -/
def intToken (cs : List Char) : Bool :=
  match cs with
  | '-' :: rest => rest ≠ [] && rest.all isDigitC
  | _ => cs ≠ [] && cs.all isDigitC

/-- Numeric value of a digit list (most significant first). -/
def digitsToNat (cs : List Char) : Nat :=
  cs.foldl (fun acc c => 10 * acc + (c.toNat - 48)) 0

/-- `token.parse::<i64>().unwrap()` on a token already known to match
`INT_RE`. -/
def parseIntTok (cs : List Char) : Int :=
  match cs with
  | '-' :: rest => -(digitsToNat rest : Int)
  | _ => (digitsToNat cs : Int)

/-- One environment (`env.rs` `Env`): a `BTreeMap<String, MalType>` of
bindings (modelled as an association list; only insertion and lookup are
observed) and an optional outer environment (`Option<Rc<Env>>`, modelled
as an index). -/
structure EnvFrame where
  data : List (String × MalType)
  outer : Option Nat

/-- The heap: all environments (`Rc<Env>` targets) and all atom cells
(`Rc<RefCell<MalType>>` targets), addressed by index. -/
structure Store where
  envs : List EnvFrame
  atoms : List MalType

/-- `Env::new(outer)` plus `Rc::new`: allocate a fresh environment, return
the updated store and its index.  New environments always point outward to
already-allocated ones, so `outer` indices are strictly smaller. -/
def Store.newEnv (st : Store) (outer : Option Nat) : Store × Nat :=
  ({ st with envs := st.envs ++ [⟨[], outer⟩] }, st.envs.length)

/-- `BTreeMap::insert` on the binding list: replace the value under an
existing key, otherwise add the binding. -/
def setData (l : List (String × MalType)) (k : String) (v : MalType) : List (String × MalType) :=
  match l with
  | [] => [(k, v)]
  | (k0, v0) :: t => if k0 = k then (k0, v) :: t else (k0, v0) :: setData t k v

/-- `Env::set` (`env.rs` line 28) on the environment at index `id`. -/
def Store.envSet (st : Store) (id : Nat) (k : String) (v : MalType) : Store :=
  match st.envs.get? id with
  | some fr => { st with envs := st.envs.set id { fr with data := setData fr.data k v } }
  | none => st

/-- Lookup in one frame's binding list. -/
def lookupData (l : List (String × MalType)) (k : String) : Option MalType :=
  match l with
  | [] => none
  | (k0, v0) :: t => if k0 = k then some v0 else lookupData t k

/-- `Env::find` (`env.rs` line 34), fueled for the walk up the outer
chain; returns the index of the nearest frame containing the symbol. -/
def envFindF : Nat → Store → Nat → String → Option Nat
  | 0, _, _, _ => none
  | f+1, st, id, s =>
    match st.envs.get? id with
    | none => none
    | some fr =>
      if (lookupData fr.data s).isSome then some id
      else match fr.outer with
        | some o => envFindF f st o s
        | none => none

/-- `Env::find` with sufficient fuel (outer chains are acyclic: every
outer index is smaller than its child's). -/
def Store.envFind (st : Store) (id : Nat) (s : String) : Option Nat :=
  envFindF (st.envs.length + 1) st id s

/-- `Env::get` (`env.rs` line 47): find the frame, then the value (the
`unwrap()` is safe because `find` checked membership; the impossible
missing case yields `nil`). -/
def Store.envGet (st : Store) (id : Nat) (s : String) : Except MalErr MalType :=
  match st.envFind id s with
  | some fid =>
    match st.envs.get? fid with
    | some fr =>
      match lookupData fr.data s with
      | some v => .ok v
      | none => .ok .nil
    | none => .ok .nil
  | none => .error (.symbolNotFound s)

/-- Flatten key/value pairs (`hm.iter().flat_map(|(k, v)| vec![k, v])`,
`printer.rs` line 40). -/
def flattenPairs : List (MalType × MalType) → List MalType
  | [] => []
  | (k, v) :: t => k :: v :: flattenPairs t

/-- Escaping of `pr_str_transform` (`printer.rs` line 12): a double quote,
newline or backslash becomes backslash plus (`"`, `n`, `\`). -/
def escapeChars : List Char → List Char
  | [] => []
  | c :: rest =>
    (if c = dquoteC || c = '\n' || c = bslashC
     then [bslashC, if c = '\n' then 'n' else c]
     else [c]) ++ escapeChars rest

/-- `pr_str_transform` (`printer.rs`): escape and wrap in double quotes. -/
def pr_str_transform (s : String) : String :=
  String.mk (dquoteC :: (escapeChars s.data ++ [dquoteC]))

/-- `s.starts_with(KEYWORD_PREFIX)`: the sentinel is a single character. -/
def isKw (s : String) : Bool :=
  match s.data with
  | c :: _ => c = kwChar
  | [] => false

/-- `&s[2..]`: drop the two-byte (one-character) keyword sentinel. -/
def kwBody (s : String) : String := String.mk s.data.tail

/-- `MalType::pr_str` (`printer.rs` lines 22-52), fueled: the fuel drops
once per nesting level and is needed because atoms dereference the store
(a self-referential atom makes the Rust function diverge).  The
`Function` arm prints `#<fn {:?}>` with the pointer address in Rust; the
address is unobservable and rendered as `?`. -/
def pr_str : Nat → Store → Bool → MalType → Option String
  | 0, _, _, _ => none
  | f+1, st, r, v =>
    match v with
    | .nil => some "nil"
    | .bool b => some (if b then "true" else "false")
    | .int i => some (intRepr i)
    | .str s =>
      if isKw s then some (":" ++ kwBody s)
      else if r then some (pr_str_transform s)
      else some s
    | .symbol s => some s
    | .list l _ =>
      (l.mapM (pr_str f st r)).map (fun ss => "(" ++ String.intercalate " " ss ++ ")")
    | .vector l _ =>
      (l.mapM (pr_str f st r)).map (fun ss => "[" ++ String.intercalate " " ss ++ "]")
    | .hashMap ps _ =>
      ((flattenPairs ps).mapM (pr_str f st r)).map
        (fun ss => String.mk [lbraceC] ++ String.intercalate " " ss ++ String.mk [rbraceC])
    | .function _ => some "#<fn ?>"
    | .malFunction _ _ _ _ => some "#<function>"
    | .atom c =>
      match st.atoms.get? c with
      | none => none
      | some inner => (pr_str f st r inner).map (fun s => "(atom " ++ s ++ ")")

/-- `pr_list` (`printer.rs` line 55): print each element, join, wrap. -/
def pr_list (fuel : Nat) (st : Store) (seq : List MalType) (op cl : String)
    (readably : Bool) (join : String) : Option String :=
  (seq.mapM (pr_str fuel st readably)).map (fun ss => op ++ String.intercalate join ss ++ cl)

/-- Code points with the Unicode White_Space property: the character set
of the regex class `\s` (and of Rust `str::trim`). -/
def wspVals : List Nat :=
  [0x09, 0x0A, 0x0B, 0x0C, 0x0D, 0x20, 0x85, 0xA0, 0x1680,
   0x2000, 0x2001, 0x2002, 0x2003, 0x2004, 0x2005, 0x2006, 0x2007,
   0x2008, 0x2009, 0x200A, 0x2028, 0x2029, 0x202F, 0x205F, 0x3000]

/-- Is `c` whitespace (`\s`)? -/
def isWsp (c : Char) : Bool := wspVals.contains c.toNat

/-- The single-character punctuation class of the tokenizer regex
(`reader.rs` line 50). -/
def isPunct1 (c : Char) : Bool :=
  c = '[' || c = ']' || c = lbraceC || c = rbraceC || c = '(' || c = ')' ||
  c = squoteC || c = btickC || c = '~' || c = '^' || c = '@'

/-- The catch-all token class: any character outside the negated set of
the tokenizer regex. -/
def tokenChar (c : Char) : Bool :=
  !(isWsp c || c = ',' || c = '[' || c = ']' || c = lbraceC || c = rbraceC ||
    c = '(' || c = ')' || c = squoteC || c = dquoteC || c = btickC || c = ';')

/-- Scan the tail of a string token after its opening quote, following
the regex branch `"(?:\\.|[^\\"])*"?`: escape pairs and non-quote
characters until a closing quote (included in the token) or until the
token can extend no further (a backslash before a newline or before the
end of input stops it, because the dot of `\\.` does not match a
newline).  Returns (token tail, remaining input). -/
def scanStr : List Char → (List Char × List Char)
  | [] => ([], [])
  | c :: rest =>
    if c = dquoteC then ([c], rest)
    else if c = bslashC then
      match rest with
      | [] => ([], [c])
      | c2 :: rest2 =>
        if c2 = '\n' then ([], c :: rest)
        else
          let p := scanStr rest2
          (c :: c2 :: p.1, p.2)
    else
      let p := scanStr rest
      (c :: p.1, p.2)

/-- One pass of the tokenizer regex over the (trimmed) input: skip
`[\s,]*`, then match the first alternative that applies (`~@`, a
punctuation character, a string, a comment — discarded by the
`filter_map` in `tokenize` — or the catch-all word).  At the end of the
input the catch-all matches once more, producing a final empty token,
exactly as `captures_iter` does.  Fueled; each step consumes at least one
character, so `length + 1` fuel suffices. -/
def tokGoF : Nat → List Char → List String
  | 0, _ => []
  | f+1, cs =>
    let cs1 := cs.dropWhile (fun c => isWsp c || c = ',')
    match cs1 with
    | [] => [""]
    | c :: rest =>
      if c = '~' then
        match rest with
        | c2 :: rest2 => if c2 = '@' then "~@" :: tokGoF f rest2 else "~" :: tokGoF f rest
        | [] => "~" :: tokGoF f []
      else if isPunct1 c then String.mk [c] :: tokGoF f rest
      else if c = dquoteC then
        let p := scanStr rest
        String.mk (c :: p.1) :: tokGoF f p.2
      else if c = ';' then
        tokGoF f (rest.dropWhile (fun x => x ≠ '\n'))
      else
        String.mk (cs1.takeWhile tokenChar) :: tokGoF f (cs1.dropWhile tokenChar)

/-- Rust `str::trim` on the character list. -/
def trimChars (cs : List Char) : List Char :=
  ((cs.dropWhile isWsp).reverse.dropWhile isWsp).reverse

/-- `tokenize` (`reader.rs` line 54): trim, scan, discard comments. -/
def tokenize (s : String) : List String :=
  let cs := trimChars s.data
  tokGoF (cs.length + 1) cs

/-- Does `STR_RE = "(?:\\.|[^\\"])*"` find a match inside a token whose
first character is a double quote?  For every token this tokenizer
produces, that holds exactly when scanning the token body reaches a
closing quote. -/
def strBodyClosed : List Char → Bool
  | [] => false
  | c :: rest =>
    if c = dquoteC then true
    else if c = bslashC then
      match rest with
      | [] => false
      | c2 :: rest2 => if c2 = '\n' then false else strBodyClosed rest2
    else strBodyClosed rest

/-- The replacement pass of `UNESCAPE_RE = \\(.)` in `read_str_transform`
(`reader.rs` line 162): a backslash and its successor become the
successor (newline for `n`); a backslash before a newline or at the end
is not matched (the dot excludes newlines) and is kept. -/
def unescChars : List Char → List Char
  | [] => []
  | [c] => [c]
  | c :: c2 :: rest2 =>
    if c = bslashC then
      if c2 = '\n' then c :: c2 :: unescChars rest2
      else (if c2 = 'n' then '\n' else c2) :: unescChars rest2
    else c :: unescChars (c2 :: rest2)

/-- `read_str_transform` (`reader.rs`): strip the surrounding quotes
(one byte each side), then unescape. -/
def read_str_transform (s : String) : String :=
  String.mk (unescChars s.data.tail.dropLast)

/-- `impl TryFrom<Token> for MalType` (`reader.rs` lines 134-157). -/
def try_from (t : String) : Except MalErr MalType :=
  if t = "nil" then .ok .nil
  else if t = "true" then .ok (.bool true)
  else if t = "false" then .ok (.bool false)
  else if intToken t.data then .ok (.int (parseIntTok t.data))
  else if t.data.head? = some dquoteC && strBodyClosed t.data.tail then
    .ok (.str (read_str_transform t))
  else if t.data.head? = some dquoteC then .error (.readErr "Unbalanced string")
  else if t.data.head? = some ':' then .ok (.str (KEYWORD_PREFIX ++ String.mk t.data.tail))
  else .ok (.symbol t)

/-- `BTreeMap::insert` on the sorted pair list: keys compared with the
derived `Ord` (the fuel is for `cmpM` and is always ample where used); an
equal key keeps the original key and replaces the value. -/
def insertPair (fuel : Nat) : List (MalType × MalType) → MalType → MalType → List (MalType × MalType)
  | [], k, v => [(k, v)]
  | (k0, v0) :: t, k, v =>
    match cmpM fuel k k0 with
    | .lt => (k, v) :: (k0, v0) :: t
    | .eq => (k0, v) :: t
    | .gt => (k0, v0) :: insertPair fuel t k v

/-- `chunks(2)` of an even-length list as key/value pairs. -/
def pairsOfFlat : List MalType → List (MalType × MalType)
  | [] => []
  | [_] => []
  | k :: v :: t => (k, v) :: pairsOfFlat t

/-- The `hashmap!` macro (`types.rs` lines 146-163): odd length is an
error; otherwise insert the chunked pairs, in order, into a fresh map. -/
def mkHashMap (fuel : Nat) (l : List MalType) : Except MalErr MalType :=
  if l.length % 2 ≠ 0 then .error (.generic "Odd number of arguments")
  else .ok (.hashMap ((pairsOfFlat l).foldl (fun m kv => insertPair fuel m kv.1 kv.2) []) .nil)

/-- `read_list`'s closing dispatch (`reader.rs` lines 115-120). -/
def wrapSeq (fuel : Nat) (endTok : String) (l : List MalType) : Except MalErr MalType :=
  if endTok = ")" then .ok (.list l .nil)
  else if endTok = "]" then .ok (.vector l .nil)
  else if endTok = String.mk [rbraceC] then mkHashMap fuel l
  else .error (.readErr "Unknown end value")

mutual

/-- `read_form` (`reader.rs` lines 72-89), fueled; the token list plays
the role of the `Reader`'s position.  Note that of the spec's reader
macros only `@` is handled; `\x27`, backtick, `~`, `~@` and `^` fall
through to `read_atom`. -/
def readFormF : Nat → List String → Option (Except MalErr (MalType × List String))
  | 0, _ => none
  | f+1, ts =>
    match ts with
    | [] => some (.error (.readErr "Reader position out of bounds"))
    | t :: rest =>
      if t = "(" then readListF f rest ")" []
      else if t = ")" then some (.error (.readErr "Unexpected \x27)\x27"))
      else if t = "[" then readListF f rest "]" []
      else if t = "]" then some (.error (.readErr "Unexpected \x27]\x27"))
      else if t = String.mk [lbraceC] then readListF f rest (String.mk [rbraceC]) []
      else if t = String.mk [rbraceC] then
        some (.error (.readErr ("Unexpected \x27" ++ String.mk [rbraceC] ++ "\x27")))
      else if t = "@" then
        match readFormF f rest with
        | none => none
        | some (.error e) => some (.error e)
        | some (.ok (v, rem)) => some (.ok (.list [.symbol "deref", v] .nil, rem))
      else some ((try_from t).map (fun v => (v, rest)))

/-- `read_list` (`reader.rs` lines 94-121) with the opening token already
consumed: read forms until the closing token, then wrap. -/
def readListF : Nat → List String → String → List MalType → Option (Except MalErr (MalType × List String))
  | 0, _, _, _ => none
  | f+1, ts, endTok, acc =>
    match ts with
    | [] => some (.error (.readErr "Unexpected EOF"))
    | t :: rest =>
      if t = endTok then some ((wrapSeq f endTok acc).map (fun v => (v, rest)))
      else
        match readFormF f ts with
        | none => none
        | some (.error e) => some (.error e)
        | some (.ok (v, ts2)) => readListF f ts2 endTok (acc ++ [v])

end

/-- `read_str` (`reader.rs` line 43): tokenize and read one form.  The
fuel is ample: reading consumes at least one token per two fuel units
(see the parsing lemmas), and the out-of-fuel branch is unreachable. -/
def read_str (s : String) : Except MalErr MalType :=
  let ts := tokenize s
  match readFormF (8 * ts.length + 16) ts with
  | some r => r.map Prod.fst
  | none => .error (.readErr "out of fuel")

/-- `impl Add for MalType` (`types.rs` line 57): defined on two integers,
`todo!()` — a panic — otherwise. -/
def addM : MalType → MalType → Option MalType
  | .int a, .int b => some (.int (a + b))
  | _, _ => none

/-- `impl Sub for MalType` (`types.rs` line 68). -/
def subM : MalType → MalType → Option MalType
  | .int a, .int b => some (.int (a - b))
  | _, _ => none

/-- `impl Mul for MalType` (`types.rs` line 79). -/
def mulM : MalType → MalType → Option MalType
  | .int a, .int b => some (.int (a * b))
  | _, _ => none

/-- `impl Div for MalType` (`types.rs` lines 90-99): `lhs / rhs` is Rust
`i64` division — truncation toward zero (`Int.tdiv`), and a PANIC when
the divisor is zero; `todo!()` — also a panic — on non-integers. -/
def divM : MalType → MalType → Option MalType
  | .int a, .int b => if b = 0 then none else some (.int (Int.tdiv a b))
  | _, _ => none

/-- `accumulate` (`core.rs` lines 18-28): fewer than two arguments is a
`FunctionErr`; otherwise fold the operator from the left over the
arguments (panics of the operator propagate). -/
def accumulate (args : List MalType) (op : MalType → MalType → Option MalType) :
    Option (Except MalErr MalType) :=
  if args.length < 2 then some (.error (.functionErr "Expected two or more arguments"))
  else
    match args with
    | [] => none
    | a0 :: rest =>
      match rest.foldlM op a0 with
      | none => none
      | some v => some (.ok v)

/-- `compare` (`core.rs` lines 30-37): exactly two arguments, result of
the boolean operator as a `Bool` value. -/
def compare (args : List MalType) (op : MalType → MalType → Bool) : Except MalErr MalType :=
  match args with
  | [a, b] => .ok (.bool (op a b))
  | _ => .error (.functionErr "Expected exactly two arguments")

/-- The `count` builtin (`core.rs` lines 388-394): element count of a
list or vector, `0` for anything else; `a[0]` panics when applied to no
arguments. -/
def countFn (args : List MalType) : Option (Except MalErr MalType) :=
  match args.head? with
  | none => none
  | some (.list l _) => some (.ok (.int l.length))
  | some (.vector l _) => some (.ok (.int l.length))
  | some _ => some (.ok (.int 0))

/-- Dispatch of the modelled `core.rs` builtins.  The comparison closures
`|x, y| x < y` etc. use the derived `PartialOrd`/`Ord` (`cmpM`), `=` uses
`PartialEq` (`malEq`); the fuel is for those and is ample wherever
called. -/
def applyBuiltin (fuel : Nat) : Builtin → List MalType → Option (Except MalErr MalType)
  | .add, args => accumulate args addM
  | .sub, args => accumulate args subM
  | .mul, args => accumulate args mulM
  | .div, args => accumulate args divM
  | .eqOp, args => some (compare args (fun x y => malEq fuel x y))
  | .ltOp, args => some (compare args (fun x y => cmpM fuel x y == .lt))
  | .leOp, args => some (compare args (fun x y => cmpM fuel x y != .gt))
  | .gtOp, args => some (compare args (fun x y => cmpM fuel x y == .gt))
  | .geOp, args => some (compare args (fun x y => cmpM fuel x y != .lt))
  | .countOp, args => countFn args

/-- Rust `value.first() == Some(&MalType::Symbol(name))` (`PartialEq`,
which on symbols is string equality and across variants is false). -/
def headIsSym (l : List MalType) (name : String) : Bool :=
  match l.head? with
  | some (.symbol s) => s == name
  | _ => false

mutual

/-- `quasiquote` (`step9_try.rs` lines 46-58), fueled.  A list whose
first element is the symbol `unquote` yields its second element (`l[1]`
panics — `none` — when absent); vectors wrap `qq_inner` in `(vec …)`;
hash-maps and symbols are quoted; everything else is itself. -/
def quasiquoteF : Nat → MalType → Option MalType
  | 0, _ => none
  | f+1, ast =>
    match ast with
    | .list l _ =>
      if headIsSym l "unquote" then l.get? 1
      else qqInnerF f l
    | .vector l _ =>
      (qqInnerF f l).map (fun r => .list [.symbol "vec", r] .nil)
    | .hashMap _ _ => some (.list [.symbol "quote", ast] .nil)
    | .symbol _ => some (.list [.symbol "quote", ast] .nil)
    | _ => some ast

/-- `qq_inner` (`step9_try.rs` lines 19-44), fueled: right fold of the
elements; an element that is a list whose first element is the symbol
`splice-unquote` contributes `(concat elt[1] rest)` (`elt[1]` panics when
absent), any other element contributes `(cons (quasiquote elt) rest)`. -/
def qqInnerF : Nat → List MalType → Option MalType
  | 0, _ => none
  | _+1, [] => some (.list [] .nil)
  | f+1, elt :: rest =>
    match elt with
    | .list el em =>
      if headIsSym el "splice-unquote" then
        match el.get? 1 with
        | none => none
        | some s => (qqInnerF f rest).map (fun r => .list [.symbol "concat", s, r] .nil)
      else
        match quasiquoteF f (.list el em), qqInnerF f rest with
        | some q, some r => some (.list [.symbol "cons", q, r] .nil)
        | _, _ => none
    | _ =>
      match quasiquoteF f elt, qqInnerF f rest with
      | some q, some r => some (.list [.symbol "cons", q, r] .nil)
      | _, _ => none

end

/-- Is `x` a two-element list `(unquote y)` — the exact shape named by
the specification? -/
def isUnquotePair : List MalType → Bool
  | [.symbol s, _] => s == "unquote"
  | _ => false

/-- Is `e` a two-element list `(splice-unquote s)` — the exact shape
named by the specification? -/
def isSpliceUnquotePair : MalType → Bool
  | .list [.symbol s, _] _ => s == "splice-unquote"
  | _ => false

/-- Second element of a two-element list (guarded by the shape tests). -/
def secondOf : List MalType → MalType
  | [_, y] => y
  | _ => .nil

/-- Argument of a two-element `(splice-unquote s)` (guarded). -/
def spliceArg : MalType → MalType
  | .list [_, y] _ => y
  | _ => .nil

mutual

/-- The quasiquote transformation exactly as the specification words it
(built from the claim, for comparison with `quasiquoteF` from the
source): a list `(unquote y)` — that exact two-element shape — maps to
`y`; any other list maps to the right fold `qqFoldSpec`; a vector to
`(vec (fold …))`; a symbol or map to `(quote x)`; anything else to
itself.  Fueled like its counterpart; total for ample fuel. -/
def qqSpecF : Nat → MalType → MalType
  | 0, x => x
  | f+1, x =>
    match x with
    | .list l _ => if isUnquotePair l then secondOf l else qqFoldSpec f l
    | .vector l _ => .list [.symbol "vec", qqFoldSpec f l] .nil
    | .hashMap _ _ => .list [.symbol "quote", x] .nil
    | .symbol _ => .list [.symbol "quote", x] .nil
    | _ => x

/-- The specification's right fold with seed `()`: an element of the
exact shape `(splice-unquote s)` turns the accumulator into
`(concat s acc)`; any other element `e` turns it into
`(cons (quasiquote e) acc)`. -/
def qqFoldSpec : Nat → List MalType → MalType
  | 0, _ => .list [] .nil
  | _+1, [] => .list [] .nil
  | f+1, e :: rest =>
    if isSpliceUnquotePair e then
      .list [.symbol "concat", spliceArg e, qqFoldSpec f rest] .nil
    else
      .list [.symbol "cons", qqSpecF f e, qqFoldSpec f rest] .nil

end

/-- Outcome of running the evaluator: a value or a `MalErr` (each with
the store as mutated so far), a Rust panic, or fuel exhaustion. -/
inductive Out where
  | ok (st : Store) (v : MalType)
  | err (st : Store) (e : MalErr)
  | panic
  | timeout

/-- Sequencing: continue on `ok`, propagate everything else (the `?`
operator plus panic/timeout). -/
def ebind (o : Out) (k : Store → MalType → Out) : Out :=
  match o with
  | .ok st v => k st v
  | other => other

/-- `Env::bind`'s loop (`env.rs` lines 58-60): bind each parameter — by
its printed name, `bind.to_string()` — to the argument at the same
position; `exprs[i]` PANICS when the arguments run out.  There is no
handling of `&` and no arity check. -/
def bindGo (fuel : Nat) (envId : Nat) :
    Store → List MalType → List MalType → Option (Except MalErr Store)
  | st, [], _ => some (.ok st)
  | _, _ :: _, [] => none
  | st, b :: bs, e :: es =>
    match pr_str fuel st true b with
    | none => none
    | some key => bindGo fuel envId (st.envSet envId key e) bs es

/-- `Env::bind` (`env.rs` lines 55-65). -/
def bindF (fuel : Nat) (st : Store) (envId : Nat) (binds : MalType) (exprs : List MalType) :
    Option (Except MalErr Store) :=
  match binds with
  | .list b _ => bindGo fuel envId st b exprs
  | .vector b _ => bindGo fuel envId st b exprs
  | _ => some (.error (.generic "binds is not a list or vector"))

/-- `MalType::apply` (`types.rs` lines 102-117), parameterised by the
evaluator (the closure stores a pointer to `eval`): builtins run
directly; a `MalFunction` gets a fresh child of its captured environment,
binds its parameters and evaluates its body there. -/
def applyWith (ev : MalType → Nat → Store → Out) (fuel : Nat) (callee : MalType)
    (args : List MalType) (st : Store) : Out :=
  match callee with
  | .function b =>
    match applyBuiltin fuel b args with
    | none => .panic
    | some (.ok v) => .ok st v
    | some (.error e) => .err st e
  | .malFunction params ast envId _ =>
    let p := st.newEnv (some envId)
    match bindF fuel p.1 p.2 params args with
    | none => .panic
    | some (.error e) => .err p.1 e
    | some (.ok st3) => ev ast p.2 st3
  | _ => .err st (.generic "Cannot apply non-function")

/-- `is_macro_call` (`step9_try.rs` lines 60-71). -/
def isMacroCall (st : Store) (env : Nat) (ast : MalType) : Bool :=
  match ast with
  | .list l _ =>
    match l.head? with
    | some (.symbol s) =>
      match st.envGet env s with
      | .ok (.malFunction _ _ _ im) => im
      | _ => false
    | _ => false
  | _ => false

/-- `macroexpand` (`step9_try.rs` lines 73-84), fueled: while the form is
a macro call, look the macro up (`unwrap()` — a panic — if the lookup
fails) and apply it to the unevaluated tail. -/
def macroexpandW (ev : MalType → Nat → Store → Out) : Nat → MalType → Nat → Store → Out
  | 0, _, _, _ => .timeout
  | f+1, ast, env, st =>
    if isMacroCall st env ast then
      match ast with
      | .list l _ =>
        match l.head? with
        | none => .panic
        | some h =>
          match pr_str f st true h with
          | none => .panic
          | some name =>
            match st.envGet env name with
            | .error _ => .panic
            | .ok mf =>
              match applyWith ev f mf (l.drop 1) st with
              | .ok st2 ast2 => macroexpandW ev f ast2 env st2
              | other => other
      | _ => .panic
    else .ok st ast

/-- Evaluate a list of forms left to right, threading the store
(`eval_ast`'s `List`/`Vector` loops). -/
def evalElemsWith (ev : MalType → Store → Out) : List MalType → Store → Except Out (Store × List MalType)
  | [], st => .ok (st, [])
  | x :: xs, st =>
    match ev x st with
    | .ok st2 v =>
      match evalElemsWith ev xs st2 with
      | .ok (st3, vs) => .ok (st3, v :: vs)
      | .error o => .error o
    | other => .error other

/-- Evaluate the values of a map in (sorted) iteration order, producing
the flattened `results` vector of `eval_ast`'s `HashMap` arm. -/
def evalPairsWith (ev : MalType → Store → Out) : List (MalType × MalType) → Store → Except Out (Store × List MalType)
  | [], st => .ok (st, [])
  | (k, v) :: t, st =>
    match ev v st with
    | .ok st2 vv =>
      match evalPairsWith ev t st2 with
      | .ok (st3, flat) => .ok (st3, k :: vv :: flat)
      | .error o => .error o
    | other => .error other

/-- `eval_ast` (`step9_try.rs` lines 268-295): symbols are looked up;
lists, vectors and maps evaluate their elements (map keys are kept);
everything else is itself. -/
def eval_astW (ev : MalType → Nat → Store → Out) (fuel : Nat) (ast : MalType) (env : Nat)
    (st : Store) : Out :=
  match ast with
  | .symbol s =>
    match st.envGet env s with
    | .ok v => .ok st v
    | .error e => .err st e
  | .list l _ =>
    match evalElemsWith (fun x s2 => ev x env s2) l st with
    | .ok (st2, vs) => .ok st2 (.list vs .nil)
    | .error o => o
  | .vector l _ =>
    match evalElemsWith (fun x s2 => ev x env s2) l st with
    | .ok (st2, vs) => .ok st2 (.vector vs .nil)
    | .error o => o
  | .hashMap ps _ =>
    match evalPairsWith (fun x s2 => ev x env s2) ps st with
    | .ok (st2, flat) =>
      match mkHashMap fuel flat with
      | .ok m => .ok st2 m
      | .error e => .err st2 e
    | .error o => o
  | _ => .ok st ast

/-- The `let*` binding loop (`step9_try.rs` lines 140-145): for each
chunk `[k, v]`, bind `k.to_string()` to the value of `v` in the new
environment.  An odd trailing chunk would panic on `w[1]` (unreachable:
evenness is checked first). -/
def letChunksW (ev : MalType → Store → Out) (fuel : Nat) (letEnv : Nat) :
    List MalType → Store → Except Out Store
  | [], st => .ok st
  | [_], _ => .error .panic
  | k :: v :: t, st =>
    match pr_str fuel st true k with
    | none => .error .panic
    | some key =>
      match ev v st with
      | .ok st2 vv => letChunksW ev fuel letEnv t (st2.envSet letEnv key vv)
      | other => .error other

/-- Walk the `outer` chain to the root environment (the `eval` special
form, `step9_try.rs` lines 193-195), fueled by the store size. -/
def rootOfF : Nat → Store → Nat → Nat
  | 0, _, id => id
  | f+1, st, id =>
    match st.envs.get? id with
    | some fr =>
      match fr.outer with
      | some o => rootOfF f st o
      | none => id
    | none => id

/-- Root of the environment chain. -/
def Store.rootOf (st : Store) (id : Nat) : Nat := rootOfF (st.envs.length + 1) st id

/-- The special-form dispatch and apply fallthrough of `eval`
(`step9_try.rs` lines 100-246), parameterised by the evaluator `ev`
(which the `continue` paths of the Rust loop re-enter).  `l` is the
non-empty list, `hs` the printed head `l[0].to_string()`. -/
def evalDispatchW (ev : MalType → Nat → Store → Out) (fuel : Nat) (l : List MalType)
    (ast : MalType) (hs : String) (env : Nat) (st : Store) : Out :=
  if hs = "def!" then
    match l.get? 2 with
    | none => .panic
    | some e2 =>
      ebind (ev e2 env st) (fun st2 result =>
        match l.get? 1 with
        | none => .panic
        | some b1 =>
          match pr_str fuel st2 true b1 with
          | none => .panic
          | some key => .ok (st2.envSet env key result) result)
  else if hs = "defmacro!" then
    match l.get? 2 with
    | none => .panic
    | some e2 =>
      ebind (ev e2 env st) (fun st2 result =>
        match result with
        | .malFunction p a e _ =>
          match l.get? 1 with
          | none => .panic
          | some b1 =>
            match pr_str fuel st2 true b1 with
            | none => .panic
            | some key =>
              .ok (st2.envSet e key (.malFunction p a e true)) (.malFunction p a e true)
        | _ => .err st2 (.generic "cannot set non-function as a macro"))
  else if hs = "let*" then
    let p := st.newEnv (some env)
    match l.get? 1 with
    | none => .panic
    | some b1 =>
      match b1 with
      | .list bl _ =>
        if bl.length % 2 ≠ 0 then .err p.1 (.invalidLet "Odd number of parameters in the binding list")
        else
          match letChunksW (fun x s2 => ev x p.2 s2) fuel p.2 bl p.1 with
          | .error o => o
          | .ok st2 =>
            match l.get? 2 with
            | none => .panic
            | some body => ev body p.2 st2
      | .vector bl _ =>
        if bl.length % 2 ≠ 0 then .err p.1 (.invalidLet "Odd number of parameters in the binding list")
        else
          match letChunksW (fun x s2 => ev x p.2 s2) fuel p.2 bl p.1 with
          | .error o => o
          | .ok st2 =>
            match l.get? 2 with
            | none => .panic
            | some body => ev body p.2 st2
      | _ => .err p.1 (.invalidLet "let* expects a list or vector as the first parameter")
  else if hs = "do" then
    if l.length = 1 then .panic
    else
      ebind (eval_astW ev fuel (.list ((l.drop 1).dropLast) .nil) env st) (fun st2 r =>
        match r with
        | .list _ _ => ev (l.getLast?.getD .nil) env st2
        | _ => .err st2 (.invalidDo "Invalid do construction"))
  else if hs = "if" then
    match l.get? 1 with
    | none => .panic
    | some c =>
      ebind (ev c env st) (fun st2 cond =>
        match cond with
        | .nil => ev ((l.get? 3).getD .nil) env st2
        | .bool false => ev ((l.get? 3).getD .nil) env st2
        | _ =>
          match l.get? 2 with
          | none => .panic
          | some t => ev t env st2)
  else if hs = "fn*" then
    match l.drop 1 with
    | [params, body] =>
      match params with
      | .list _ _ => .ok st (.malFunction params body env false)
      | .vector _ _ => .ok st (.malFunction params body env false)
      | _ => .err st (.malFunctionErr "fn* expects two parameters")
    | _ => .err st (.malFunctionErr "fn* expects two parameters")
  else if hs = "eval" then
    match l.get? 1 with
    | none => .panic
    | some x =>
      ebind (ev x env st) (fun st2 v => ev v (st2.rootOf env) st2)
  else if hs = "quote" then
    match l.get? 1 with
    | none => .panic
    | some x => .ok st x
  else if hs = "quasiquote" then
    match l.get? 1 with
    | none => .panic
    | some x =>
      match quasiquoteF fuel x with
      | none => .panic
      | some a2 => ev a2 env st
  else if hs = "quasiquoteexpand" then
    match l.get? 1 with
    | none => .panic
    | some x =>
      match quasiquoteF fuel x with
      | none => .panic
      | some r => .ok st r
  else if hs = "macroexpand" then
    match l.get? 1 with
    | none => .panic
    | some x => macroexpandW ev fuel x env st
  else if hs = "try*" then
    match l.get? 1 with
    | none => .panic
    | some b =>
      match ev b env st with
      | .err st2 e =>
        if l.length > 2 then
          match l.get? 2 with
          | some (.list c _) =>
            if headIsSym c "catch*" then
              match c.get? 1 with
              | none => .panic
              | some cv =>
                let payload := match e with
                  | .throw mt => mt
                  | _ => MalType.str (errToString e)
                let p := st2.newEnv (some env)
                match bindF fuel p.1 p.2 (.list [cv] .nil) [payload] with
                | none => .panic
                | some (.error e2) => .err p.1 e2
                | some (.ok st4) =>
                  match c.get? 2 with
                  | none => .panic
                  | some handler => ev handler p.2 st4
            else .err st2 (.generic "expected catch* branch as a list")
          | some _ => .err st2 (.generic "expected catch* branch as a list")
          | none => .panic
        else .err st2 e
      | other => other
  else
    ebind (eval_astW ev fuel ast env st) (fun st2 r =>
      match r with
      | .list el _ =>
        match el with
        | [] => .err st2 (.generic "Something bad happened")
        | f0 :: args => applyWith ev fuel f0 args st2
      | _ => .err st2 (.generic "Expected a list"))

/-- `eval` (`step9_try.rs` lines 86-255), fueled: each iteration of the
Rust loop — and each nested `eval` call — re-enters with one unit less
fuel.  Macro expansion first; a non-list returns `eval_ast`; the empty
list returns itself; otherwise dispatch on the printed head symbol. -/
def eval : Nat → MalType → Nat → Store → Out
  | 0, _, _, _ => .timeout
  | f+1, ast0, env, st0 =>
    match macroexpandW (fun a e s => eval f a e s) f ast0 env st0 with
    | .ok st1 ast =>
      match ast with
      | .list l _ =>
        if l.length = 0 then .ok st1 ast
        else
          match l.head? with
          | none => .panic
          | some h =>
            match pr_str f st1 true h with
            | none => .panic
            | some hs => evalDispatchW (fun a e s => eval f a e s) f l ast hs env st1
      | _ => eval_astW (fun a e s => eval f a e s) f ast env st1
    | other => other

/-- The bindings of `core::ns` that this development models, installed in
the root environment as `main` does (`step9_try.rs` lines 306-309); the
remaining builtins of `ns` are not needed by any claim and simply absent
(a program using them would see `SymbolNotFound`). -/
def rootStore : Store :=
  { envs := [⟨[("+", .function .add), ("-", .function .sub), ("*", .function .mul),
              ("/", .function .div), ("=", .function .eqOp), ("<", .function .ltOp),
              ("<=", .function .leOp), (">", .function .gtOp), (">=", .function .geOp),
              ("count", .function .countOp)], none⟩],
    atoms := [] }

/-- Read and evaluate one source line against the root environment. -/
def evalTop (s : String) : Out :=
  match read_str s with
  | .ok ast => eval 200 ast 0 rootStore
  | .error e => .err rootStore e

/-- Read and evaluate several source lines in order against the root
environment, as the REPL does, producing the outcome of the last. -/
def evalSeq (fuel : Nat) : List String → Store → Out
  | [], st => .ok st .nil
  | s :: rest, st =>
    match read_str s with
    | .error e => .err st e
    | .ok ast =>
      match eval fuel ast 0 st with
      | .ok st2 v => if rest.isEmpty then .ok st2 v else evalSeq fuel rest st2
      | other => other

/-- The value of an outcome, when it is one. -/
def outVal : Out → Option MalType
  | .ok _ v => some v
  | _ => none

/-- The error of an outcome, when it is one. -/
def outErr : Out → Option MalErr
  | .err _ e => some e
  | _ => none

/-- Did the run end in a panic (a Rust process crash, not a `MalErr`)? -/
def isPanic : Out → Bool
  | .panic => true
  | _ => false

/-- Is the value a list or a vector (the two sequence variants of
`count`'s match)? -/
def isSeqB : MalType → Bool
  | .list _ _ => true
  | .vector _ _ => true
  | _ => false

mutual

/-- Safety condition for the quasiquote transformation: every list whose
first element is the symbol `unquote` has exactly two elements, and
recursively for the positions `quasiquote`/`qq_inner` traverse.  Fueled
along the same recursion as `quasiquoteF`. -/
def qqSafeB : Nat → MalType → Bool
  | 0, _ => false
  | f+1, x =>
    match x with
    | .list l _ => if headIsSym l "unquote" then l.length == 2 else qqSafeInner f l
    | .vector l _ => qqSafeInner f l
    | _ => true

/-- Elementwise safety for `qq_inner`: a `splice-unquote`-headed element
has exactly two elements; every other element is safe for `quasiquote`. -/
def qqSafeInner : Nat → List MalType → Bool
  | 0, _ => false
  | _+1, [] => true
  | f+1, e :: rest =>
    (match e with
     | .list el _ => if headIsSym el "splice-unquote" then el.length == 2 else qqSafeB f e
     | _ => qqSafeB f e) && qqSafeInner f rest

end

/-- Is the meta value `Nil` (the default the reader always attaches)? -/
def isNilM : MalType → Bool
  | .nil => true
  | _ => false

/-- Is `s` a well-formed symbol token: nonempty, made of catch-all token
characters, not starting with a character the tokenizer or `TryFrom`
claims first (`~`, `^`, `@`, `:`), and not reading back as `nil`, a
boolean or an integer? -/
def symbolOkB (s : String) : Bool :=
  !s.data.isEmpty && s.data.all tokenChar &&
  (match s.data.head? with
   | some c => !(c = '~' || c = '^' || c = '@' || c = ':')
   | none => false) &&
  !(s == "nil") && !(s == "true") && !(s == "false") && !intToken s.data

/-- Are all later keys `cmpM fuel`-greater than `k` (compared with the
later key as the left argument, the order in which `BTreeMap::insert`
compares a new key against the stored ones)? -/
def keysGt (fuel : Nat) (k : MalType) : List (MalType × MalType) → Bool
  | [] => true
  | (k2, _) :: t => (cmpM fuel k2 k == Ordering.gt) && keysGt fuel k t

/-- Pairwise strict sortedness of a map's key sequence under the derived
`Ord` — the representation invariant of `BTreeMap`. -/
def sortedKeys (fuel : Nat) : List (MalType × MalType) → Bool
  | [] => true
  | (k, _) :: t => keysGt fuel k t && sortedKeys fuel t

/-- Well-formedness for the round-trip property, fueled by nesting
depth: no functions or atoms anywhere, all metadata `nil`, symbols and
keyword bodies are well-formed tokens, and every hash-map's pair list is
strictly sorted (its `BTreeMap` invariant). -/
def wfB : Nat → MalType → Bool
  | 0, _ => false
  | f+1, v =>
    match v with
    | .nil => true
    | .bool _ => true
    | .int _ => true
    | .str s => if isKw s then s.data.tail.all tokenChar else true
    | .symbol s => symbolOkB s
    | .list l m => l.all (fun x => wfB f x) && isNilM m
    | .vector l m => l.all (fun x => wfB f x) && isNilM m
    | .hashMap ps m =>
      ps.all (fun kv => wfB f kv.1 && wfB f kv.2) && sortedKeys (f+1) ps && isNilM m
    | .function _ => false
    | .malFunction _ _ _ _ => false
    | .atom _ => false

mutual

/-- Nesting depth of a value: the fuel `cmpM`, `malEq`, `pr_str` and
`wfB` need.  Proof-layer definition (well-founded recursion). -/
def depthM : MalType → Nat
  | .nil => 1
  | .bool _ => 1
  | .int _ => 1
  | .str _ => 1
  | .symbol _ => 1
  | .list l m => 1 + max (depthL l) (depthM m)
  | .vector l m => 1 + max (depthL l) (depthM m)
  | .hashMap ps m => 1 + max (depthP ps) (depthM m)
  | .function _ => 1
  | .malFunction p a _ _ => 1 + max (depthM p) (depthM a)
  | .atom _ => 1

/-- Maximal depth of a list of values. -/
def depthL : List MalType → Nat
  | [] => 0
  | x :: xs => max (depthM x) (depthL xs)

/-- Maximal depth over the keys and values of a pair list. -/
def depthP : List (MalType × MalType) → Nat
  | [] => 0
  | (k, v) :: t => max (max (depthM k) (depthM v)) (depthP t)

end

mutual

/-- The string `pr_str` produces in readable mode (for atom-free
values); proof-layer mirror of `pr_str`, by well-founded recursion. -/
def prs : MalType → String
  | .nil => "nil"
  | .bool b => if b then "true" else "false"
  | .int i => intRepr i
  | .str s => if isKw s then ":" ++ kwBody s else pr_str_transform s
  | .symbol s => s
  | .list l _ => "(" ++ String.intercalate " " (prsL l) ++ ")"
  | .vector l _ => "[" ++ String.intercalate " " (prsL l) ++ "]"
  | .hashMap ps _ =>
    String.mk [lbraceC] ++ String.intercalate " " (prsP ps) ++ String.mk [rbraceC]
  | .function _ => "#<fn ?>"
  | .malFunction _ _ _ _ => "#<function>"
  | .atom _ => ""

/-- Printed strings of a list of values. -/
def prsL : List MalType → List String
  | [] => []
  | x :: xs => prs x :: prsL xs

/-- Printed strings of a flattened pair list. -/
def prsP : List (MalType × MalType) → List String
  | [] => []
  | (k, v) :: t => prs k :: prs v :: prsP t

end

mutual

/-- The token sequence the tokenizer produces from `prs v` (for
well-formed `v`); proof-layer mirror. -/
def tks : MalType → List String
  | .nil => ["nil"]
  | .bool b => if b then ["true"] else ["false"]
  | .int i => [intRepr i]
  | .str s =>
    if isKw s then [":" ++ kwBody s]
    else [pr_str_transform s]
  | .symbol s => [s]
  | .list l _ => "(" :: (tksL l ++ [")"])
  | .vector l _ => "[" :: (tksL l ++ ["]"])
  | .hashMap ps _ => String.mk [lbraceC] :: (tksP ps ++ [String.mk [rbraceC]])
  | .function _ => []
  | .malFunction _ _ _ _ => []
  | .atom _ => []

/-- Concatenated token sequences of a list of values. -/
def tksL : List MalType → List String
  | [] => []
  | x :: xs => tks x ++ tksL xs

/-- Concatenated token sequences of a flattened pair list. -/
def tksP : List (MalType × MalType) → List String
  | [] => []
  | (k, v) :: t => tks k ++ (tks v ++ tksP t)

end

/-- Does the remainder start at a token boundary (empty, or a character
outside the catch-all class)? -/
def delimB : List Char → Prop
  | [] => True
  | c :: _ => tokenChar c = false

/-- The tokenizer at its canonical fuel (`length + 1`, the fuel
`tokenize` itself uses on trimmed input); by `tokGoF_irr` any larger
fuel agrees. -/
def tokN (cs : List Char) : List String := tokGoF (cs.length + 1) cs

/-- A concrete well-formed value exercising every round-trippable
variant: a sorted two-entry map holding a list (with a symbol and a
string containing a space), a keyword key and a vector of literals. -/
def vC7 : MalType :=
  .hashMap
    [(.int (-3), .list [.symbol "abc", .str "x y"] .nil),
     (.str (String.mk [kwChar, 'k', 'w']), .vector [.nil, .bool true, .int 7] .nil)]
    .nil

/-! ## Theorems about the claims (preceded by their supporting lemmas) -/

/-! ### Round-trip support: character classes and token classification -/

/-- Helper: a catch-all token character is none of the delimiter
characters. -/
theorem tokenChar_spec {c : Char} (h : tokenChar c = true) :
    isWsp c = false ∧ c ≠ ',' ∧ c ≠ '[' ∧ c ≠ ']' ∧ c ≠ lbraceC ∧ c ≠ rbraceC ∧
    c ≠ '(' ∧ c ≠ ')' ∧ c ≠ squoteC ∧ c ≠ dquoteC ∧ c ≠ btickC ∧ c ≠ ';' := by
  unfold tokenChar at h
  simp only [Bool.not_eq_eq_eq_not, Bool.not_true, Bool.or_eq_false_iff,
    decide_eq_false_iff_not] at h
  tauto

/-- Helper: two strings with different head characters differ. -/
theorem head_ne_string {t : String} {c x : Char} {l : List Char}
    (hh : t.data.head? = some c) (hne : c ≠ x) : t ≠ String.mk (x :: l) := by
  intro he
  subst he
  simp at hh
  exact hne hh.symm

/-- Helper: `read_form` reaches `read_atom`/`TryFrom` for any token
whose head character is none of the dispatch punctuation. -/
theorem readFormF_atom_route {t : String} {c : Char} (hh : t.data.head? = some c)
    (h1 : c ≠ '(') (h2 : c ≠ ')') (h3 : c ≠ '[') (h4 : c ≠ ']')
    (h5 : c ≠ lbraceC) (h6 : c ≠ rbraceC) (h7 : c ≠ '@') (rest : List String) (f : Nat) :
    readFormF (f+1) (t :: rest) = some ((try_from t).map (fun v => (v, rest))) := by
  unfold readFormF
  dsimp only
  rw [if_neg (head_ne_string hh h1), if_neg (head_ne_string hh h2),
    if_neg (head_ne_string hh h3), if_neg (head_ne_string hh h4),
    if_neg (head_ne_string hh h5), if_neg (head_ne_string hh h6),
    if_neg (head_ne_string hh h7)]

/-! ### Round-trip support: decimal integers -/

/-- Helper: the code point of a digit character. -/
theorem toNat_digitChar {d : Nat} (h : d < 10) : (digitChar d).toNat = 48 + d := by
  interval_cases d <;> decide

/-- Helper: digit characters satisfy `isDigitC`. -/
theorem isDigitC_digitChar {d : Nat} (h : d < 10) : isDigitC (digitChar d) = true := by
  interval_cases d <;> decide

/-- Helper: `digitsToNat` over an appended digit. -/
theorem digitsToNat_append_digit (ds : List Char) (c : Char) :
    digitsToNat (ds ++ [c]) = 10 * digitsToNat ds + (c.toNat - 48) := by
  simp [digitsToNat, List.foldl_append]

/-- Helper: `natDigitsF` with adequate fuel produces a nonempty,
all-digit representation whose value is the input. -/
theorem natDigitsF_spec : ∀ fl n, n < fl →
    natDigitsF fl n ≠ [] ∧ (natDigitsF fl n).all isDigitC = true ∧
    digitsToNat (natDigitsF fl n) = n := by
  intro fl
  induction fl with
  | zero => intro n hn; omega
  | succ fl ih =>
    intro n hn
    by_cases h10 : n < 10
    · refine ⟨by simp [natDigitsF, h10], ?_, ?_⟩
      · simp [natDigitsF, h10, isDigitC_digitChar h10]
      · simp [natDigitsF, h10, digitsToNat, toNat_digitChar h10]
    · have hdiv : n / 10 < n := Nat.div_lt_self (by omega) (by norm_num)
      have hfl : n / 10 < fl := by omega
      obtain ⟨hne, hdig, hval⟩ := ih (n / 10) hfl
      have hmod : n % 10 < 10 := Nat.mod_lt _ (by norm_num)
      refine ⟨by simp [natDigitsF, h10], ?_, ?_⟩
      · simp [natDigitsF, h10, List.all_append, hdig, isDigitC_digitChar hmod]
      · rw [show natDigitsF (fl+1) n = natDigitsF fl (n / 10) ++ [digitChar (n % 10)] by
            simp [natDigitsF, h10],
          digitsToNat_append_digit, hval, toNat_digitChar hmod]
        omega

/-- Helper: `natRepr` facts. -/
theorem natRepr_spec (n : Nat) :
    natRepr n ≠ [] ∧ (natRepr n).all isDigitC = true ∧ digitsToNat (natRepr n) = n :=
  natDigitsF_spec (n + 1) n (Nat.lt_succ_self n)

/-- Helper: a digit character is not a minus sign. -/
theorem isDigitC_ne_minus {c : Char} (h : isDigitC c = true) : c ≠ '-' := by
  intro he
  subst he
  simp [isDigitC] at h

/-- Helper: `intToken` holds for a nonempty all-digit list. -/
theorem intToken_digits {cs : List Char} (hne : cs ≠ []) (hd : cs.all isDigitC = true) :
    intToken cs = true := by
  match cs, hne with
  | c :: rest, _ =>
    have hc : isDigitC c = true := by
      simp [List.all_cons] at hd
      exact hd.1
    have hm : c ≠ '-' := isDigitC_ne_minus hc
    unfold intToken
    split
    · next heq => exact absurd (show c = '-' by injection heq) hm
    · simp [hd]

/-- Helper: the token of `intRepr i` satisfies `INT_RE` and parses back
to `i`. -/
theorem intRepr_roundtrip (i : Int) :
    intToken (intRepr i).data = true ∧ parseIntTok (intRepr i).data = i := by
  obtain ⟨hne, hdig, hval⟩ := natRepr_spec i.natAbs
  by_cases hneg : i < 0
  · have hdata : (intRepr i).data = '-' :: natRepr i.natAbs := by
      simp [intRepr, hneg]
    have habs : (i.natAbs : Int) = -i := Int.ofNat_natAbs_of_nonpos (by omega)
    constructor
    · rw [hdata]
      rw [show intToken ('-' :: natRepr i.natAbs) =
            (decide (natRepr i.natAbs ≠ []) && (natRepr i.natAbs).all isDigitC) from rfl]
      simp [hne, hdig]
    · rw [hdata]
      rw [show parseIntTok ('-' :: natRepr i.natAbs) =
            -(digitsToNat (natRepr i.natAbs) : Int) from rfl]
      rw [hval]
      omega
  · have hdata : (intRepr i).data = natRepr i.natAbs := by
      simp [intRepr, hneg]
    have habs : (i.natAbs : Int) = i := Int.natAbs_of_nonneg (by omega)
    refine ⟨by rw [hdata]; exact intToken_digits hne hdig, ?_⟩
    rw [hdata]
    match hr : natRepr i.natAbs, hne with
    | c :: rest, _ =>
      have hc : isDigitC c = true := by
        rw [hr] at hdig
        simp [List.all_cons] at hdig
        exact hdig.1
      unfold parseIntTok
      split
      · next heq => exact absurd (show c = '-' by injection heq) (isDigitC_ne_minus hc)
      · rw [← hr, hval, habs]

/-! ### Round-trip support: `TryFrom` on each token kind -/

/-- Helper: `TryFrom` on a well-formed symbol token yields that
symbol. -/
theorem try_from_sym {s : String} (h : symbolOkB s = true) : try_from s = .ok (.symbol s) := by
  simp only [symbolOkB, Bool.and_eq_true, Bool.not_eq_eq_eq_not, Bool.not_true,
    beq_eq_false_iff_ne, ne_eq, decide_eq_false_iff_not] at h
  obtain ⟨⟨⟨⟨⟨⟨hne, hall⟩, hhead⟩, hnil⟩, htrue⟩, hfalse⟩, hint⟩ := h
  obtain ⟨c, cs, hdata⟩ : ∃ c cs, s.data = c :: cs := by
    match hd : s.data with
    | [] => rw [hd] at hne; simp at hne
    | c :: cs => exact ⟨c, cs, rfl⟩
  have hh : s.data.head? = some c := by rw [hdata]; rfl
  have hct : tokenChar c = true := by
    rw [hdata] at hall
    simp [List.all_cons] at hall
    exact hall.1
  obtain ⟨_, _, _, _, _, _, _, _, _, hdq, _, _⟩ := tokenChar_spec hct
  have hc4 : c ≠ ':' := by
    rw [hdata] at hhead
    simp at hhead
    tauto
  unfold try_from
  rw [if_neg hnil, if_neg htrue, if_neg hfalse,
    if_neg (by simp [Bool.not_eq_true] at hint ⊢; exact hint),
    if_neg (by simp [hh]; intro hcd; exact absurd hcd hdq),
    if_neg (by simp [hh]; intro hcd; exact absurd hcd hdq),
    if_neg (by simp [hh]; intro hcd; exact absurd hcd hc4)]

/-- Helper: `TryFrom` on a keyword token `:body` yields the
sentinel-prefixed string. -/
theorem try_from_kw {rest : List Char} :
    try_from (String.mk (':' :: rest)) = .ok (.str (String.mk (kwChar :: rest))) := by
  have hh : (String.mk (':' :: rest)).data.head? = some ':' := rfl
  have hint : intToken (':' :: rest) = false := by
    unfold intToken
    split
    · next heq =>
      exact absurd (show (':' : Char) = '-' by injection heq) (by decide)
    · simp [List.all_cons]
      intro h
      exact absurd h (by decide)
  unfold try_from
  rw [if_neg (head_ne_string hh (by decide)), if_neg (head_ne_string hh (by decide)),
    if_neg (head_ne_string hh (by decide)), if_neg (by simp [hint]),
    if_neg (by simp [hh]; intro h; exact absurd h (by decide)),
    if_neg (by simp [hh]; decide), if_pos hh]
  rfl

/-- Helper: a digit character differs from any character with a code
point outside the digit range. -/
theorem isDigitC_ne_of {c x : Char} (h : isDigitC c = true) (hx : x.toNat < 48 ∨ 57 < x.toNat) :
    c ≠ x := by
  intro he
  subst he
  simp [isDigitC] at h
  omega

/-- Helper: `TryFrom` on the printed integer yields the integer back. -/
theorem try_from_int (i : Int) : try_from (intRepr i) = .ok (.int i) := by
  obtain ⟨htok, hval⟩ := intRepr_roundtrip i
  obtain ⟨hne, hdig, _⟩ := natRepr_spec i.natAbs
  obtain ⟨c, cs, hdata, hc⟩ :
      ∃ c cs, (intRepr i).data = c :: cs ∧ (c = '-' ∨ isDigitC c = true) := by
    by_cases hneg : i < 0
    · exact ⟨'-', natRepr i.natAbs, by simp [intRepr, hneg], Or.inl rfl⟩
    · match hr : natRepr i.natAbs, hne with
      | c :: cs, _ =>
        refine ⟨c, cs, by simp [intRepr, hneg, hr], Or.inr ?_⟩
        rw [hr] at hdig
        simp [List.all_cons] at hdig
        exact hdig.1
  have hh : (intRepr i).data.head? = some c := by rw [hdata]; rfl
  have hcn : c ≠ 'n' := by
    rcases hc with h | h
    · subst h; decide
    · exact isDigitC_ne_of h (by decide)
  have hct : c ≠ 't' := by
    rcases hc with h | h
    · subst h; decide
    · exact isDigitC_ne_of h (by decide)
  have hcf : c ≠ 'f' := by
    rcases hc with h | h
    · subst h; decide
    · exact isDigitC_ne_of h (by decide)
  unfold try_from
  rw [if_neg (head_ne_string hh hcn), if_neg (head_ne_string hh hct),
    if_neg (head_ne_string hh hcf), if_pos htok, hval]

/-! ### Round-trip support: string escaping and scanning -/

/-- Helper: one step of `escapeChars` on an escaped character. -/
theorem escape_cons_special {c : Char} (hs : c = dquoteC ∨ c = '\n' ∨ c = bslashC)
    (rest : List Char) :
    escapeChars (c :: rest) = bslashC :: (if c = '\n' then 'n' else c) :: escapeChars rest := by
  rw [escapeChars, if_pos (by rcases hs with h | h | h <;> simp [h])]
  rfl

/-- Helper: one step of `escapeChars` on an ordinary character. -/
theorem escape_cons_plain {c : Char} (h1 : c ≠ dquoteC) (h2 : c ≠ '\n') (h3 : c ≠ bslashC)
    (rest : List Char) :
    escapeChars (c :: rest) = c :: escapeChars rest := by
  rw [escapeChars, if_neg (by simp [h1, h2, h3])]
  rfl

/-- Helper: the encoded second character of an escape pair is never a
newline. -/
theorem escape_enc_ne_newline {c : Char} (hs : c = dquoteC ∨ c = '\n' ∨ c = bslashC) :
    (if c = '\n' then 'n' else c) ≠ '\n' := by
  rcases hs with h | h | h <;> subst h <;> decide

/-- Helper: the encoded pair decodes back to the character. -/
theorem escape_enc_decode {c : Char} (hs : c = dquoteC ∨ c = '\n' ∨ c = bslashC) :
    (if (if c = '\n' then 'n' else c) = 'n' then '\n' else if c = '\n' then 'n' else c) = c := by
  rcases hs with h | h | h <;> subst h <;> decide

/-- Helper: `unescChars` steps over a non-backslash character. -/
theorem unesc_cons {c : Char} (h : c ≠ bslashC) (rest : List Char) :
    unescChars (c :: rest) = c :: unescChars rest := by
  cases rest with
  | nil => simp [unescChars]
  | cons c2 r => simp [unescChars, h]

/-- Helper: `unescChars` resolves an escape pair. -/
theorem unesc_pair {x : Char} (hx : x ≠ '\n') (rest : List Char) :
    unescChars (bslashC :: x :: rest) =
      (if x = 'n' then '\n' else x) :: unescChars rest := by
  simp [unescChars, hx]

/-- Helper: unescaping inverts escaping. -/
theorem unesc_escape : ∀ cs, unescChars (escapeChars cs) = cs := by
  intro cs
  induction cs with
  | nil => rfl
  | cons c rest ih =>
    by_cases hs : c = dquoteC ∨ c = '\n' ∨ c = bslashC
    · rw [escape_cons_special hs, unesc_pair (escape_enc_ne_newline hs), ih,
        escape_enc_decode hs]
    · push_neg at hs
      obtain ⟨h1, h2, h3⟩ := hs
      rw [escape_cons_plain h1 h2 h3, unesc_cons h3, ih]

/-- Helper: scanning the escaped body consumes it up to and including
the closing quote. -/
theorem scanStr_escape : ∀ cs rest,
    scanStr (escapeChars cs ++ dquoteC :: rest) = (escapeChars cs ++ [dquoteC], rest) := by
  intro cs
  induction cs with
  | nil =>
    intro rest
    simp only [escapeChars, List.nil_append]
    unfold scanStr
    rw [if_pos rfl]
  | cons c t ih =>
    intro rest
    by_cases hs : c = dquoteC ∨ c = '\n' ∨ c = bslashC
    · rw [escape_cons_special hs]
      have hx := escape_enc_ne_newline hs
      simp only [List.cons_append]
      unfold scanStr
      rw [if_neg (by decide : ¬ bslashC = dquoteC), if_pos rfl]
      simp [hx, ih rest, escape_cons_special hs]
    · push_neg at hs
      obtain ⟨h1, h2, h3⟩ := hs
      rw [escape_cons_plain h1 h2 h3]
      simp only [List.cons_append]
      unfold scanStr
      rw [if_neg h1, if_neg h3]
      simp [ih rest, escape_cons_plain h1 h2 h3]

/-- Helper: the escaped body scans as closed. -/
theorem strBodyClosed_escape : ∀ cs, strBodyClosed (escapeChars cs ++ [dquoteC]) = true := by
  intro cs
  induction cs with
  | nil => simp [strBodyClosed]
  | cons c t ih =>
    by_cases hs : c = dquoteC ∨ c = '\n' ∨ c = bslashC
    · rw [escape_cons_special hs]
      have hx := escape_enc_ne_newline hs
      simp only [List.cons_append]
      unfold strBodyClosed
      rw [if_neg (by decide : ¬ bslashC = dquoteC)]
      simp [hx, ih]
    · push_neg at hs
      obtain ⟨h1, h2, h3⟩ := hs
      rw [escape_cons_plain h1 h2 h3]
      simp only [List.cons_append]
      unfold strBodyClosed
      rw [if_neg h1, if_neg h3]
      exact ih

/-- Helper: `TryFrom` on a printed (quoted, escaped) string token yields
the original string. -/
theorem try_from_strtok (sd : List Char) :
    try_from (String.mk (dquoteC :: (escapeChars sd ++ [dquoteC]))) = .ok (.str (String.mk sd)) := by
  have hh : (String.mk (dquoteC :: (escapeChars sd ++ [dquoteC]))).data.head? = some dquoteC := rfl
  have hint : intToken (dquoteC :: (escapeChars sd ++ [dquoteC])) = false := by
    unfold intToken
    split
    · next heq => exact absurd (show dquoteC = '-' by injection heq) (by decide)
    · simp [List.all_cons, show isDigitC dquoteC = false by decide]
  unfold try_from
  rw [if_neg (head_ne_string hh (by decide)), if_neg (head_ne_string hh (by decide)),
    if_neg (head_ne_string hh (by decide)), if_neg (by simp [hint]),
    if_pos (by simp [hh, strBodyClosed_escape])]
  simp [read_str_transform, List.dropLast_concat, unesc_escape]

/-! ### Round-trip support: the tokenizer on printed output -/

/-- Helper: `takeWhile` over an all-satisfying prefix. -/
theorem takeWhile_append_all {p : Char → Bool} :
    ∀ l s : List Char, l.all p = true → (l ++ s).takeWhile p = l ++ s.takeWhile p := by
  intro l
  induction l with
  | nil => intro s _; rfl
  | cons c t ih =>
    intro s h
    simp [List.all_cons] at h
    simp [List.takeWhile_cons, h.1, ih s (by simp [List.all_eq_true]; exact h.2)]

/-- Helper: `dropWhile` over an all-satisfying prefix. -/
theorem dropWhile_append_all {p : Char → Bool} :
    ∀ l s : List Char, l.all p = true → (l ++ s).dropWhile p = s.dropWhile p := by
  intro l
  induction l with
  | nil => intro s _; rfl
  | cons c t ih =>
    intro s h
    simp [List.all_cons] at h
    simp [List.dropWhile_cons, h.1, ih s (by simp [List.all_eq_true]; exact h.2)]

/-- Helper: scanning a string token never lengthens the remainder
(bounded form for induction). -/
theorem scanStr_len_aux : ∀ n (l : List Char), l.length ≤ n → (scanStr l).2.length ≤ l.length := by
  intro n
  induction n with
  | zero =>
    intro l h
    match l with
    | [] => simp [scanStr]
  | succ n ih =>
    intro l h
    match l with
    | [] => simp [scanStr]
    | c :: rest =>
      unfold scanStr
      by_cases h1 : c = dquoteC
      · simp [h1]
      · rw [if_neg h1]
        by_cases h2 : c = bslashC
        · rw [if_pos h2]
          match rest with
          | [] => simp
          | c2 :: rest2 =>
            dsimp only
            by_cases h3 : c2 = '\n'
            · simp [h3]
            · rw [if_neg h3]
              have hr := ih rest2 (by simp at h; omega)
              simp only [List.length_cons]
              omega
        · rw [if_neg h2]
          have hr := ih rest (by simp at h; omega)
          simp only [List.length_cons]
          omega

/-- Helper: scanning a string token never lengthens the remainder. -/
theorem scanStr_len (l : List Char) : (scanStr l).2.length ≤ l.length :=
  scanStr_len_aux l.length l (Nat.le_refl _)

/-- Helper: the head of a nonempty `dropWhile` fails the predicate. -/
theorem dropWhile_head_false {p : Char → Bool} :
    ∀ (l : List Char) {c : Char} {rest : List Char}, l.dropWhile p = c :: rest → p c = false := by
  intro l
  induction l with
  | nil => intro c rest h; simp at h
  | cons a t ih =>
    intro c rest h
    by_cases hp : p a = true
    · rw [List.dropWhile_cons_of_pos hp] at h
      exact ih h
    · rw [List.dropWhile_cons_of_neg hp] at h
      cases h
      simpa using hp

/-- Helper: dropWhile never lengthens a list. -/
theorem len_dropWhile_le (p : Char → Bool) : ∀ (l : List Char),
    (l.dropWhile p).length ≤ l.length := by
  intro l
  induction l with
  | nil => simp [List.dropWhile]
  | cons a t ih =>
    by_cases hp : p a = true
    · rw [List.dropWhile_cons_of_pos hp]
      simp only [List.length_cons]
      omega
    · rw [List.dropWhile_cons_of_neg hp]

/-- Helper: a character that survives every tokenizer branch test is a
catch-all token character. -/
theorem tokenChar_of_branches {c : Char} (hw : (isWsp c || c = ',') = false)
    (h1 : ¬c = '~') (h2 : ¬isPunct1 c = true) (h3 : ¬c = dquoteC) (h4 : ¬c = ';') :
    tokenChar c = true := by
  simp only [Bool.or_eq_false_iff, decide_eq_false_iff_not] at hw
  simp only [isPunct1, Bool.or_eq_true, decide_eq_true_eq, not_or] at h2
  simp only [tokenChar, Bool.not_eq_eq_eq_not, Bool.not_true, Bool.or_eq_false_iff,
    decide_eq_false_iff_not]
  tauto

/-- Helper: `tokGoF` does not depend on the fuel once it exceeds the
input length. -/
theorem tokGoF_irr : ∀ n f g (cs : List Char), cs.length ≤ n → cs.length < f →
    cs.length < g → tokGoF f cs = tokGoF g cs := by
  intro n
  induction n with
  | zero =>
    intro f g cs hn hf hg
    match cs, hn with
    | [], _ =>
      match f, hf, g, hg with
      | f'+1, _, g'+1, _ => rfl
  | succ n ih =>
    intro f g cs hn hf hg
    match f, hf, g, hg with
    | f'+1, _, g'+1, _ =>
      unfold tokGoF
      have hlen1 := len_dropWhile_le (fun c => isWsp c || c = ',') cs
      cases hcs1 : cs.dropWhile (fun c => isWsp c || c = ',') with
      | nil => simp only [hcs1]
      | cons c rest =>
        rw [hcs1] at hlen1
        simp only [hcs1, List.length_cons] at hlen1 ⊢
        have hrl : rest.length < cs.length := by omega
        by_cases h1 : c = '~'
        · rw [if_pos h1, if_pos h1]
          match rest with
          | [] =>
            have h0 : (0 : Nat) < f' ∧ (0 : Nat) < g' := by simp at hrl ⊢; omega
            dsimp only
            rw [ih f' g' [] (by omega) h0.1 h0.2]
          | c2 :: rest2 =>
            simp only [List.length_cons] at hrl
            dsimp only
            by_cases h2 : c2 = '@'
            · rw [if_pos h2, if_pos h2,
                ih f' g' rest2 (by omega) (by omega) (by omega)]
            · rw [if_neg h2, if_neg h2,
                ih f' g' (c2 :: rest2) (by simp; omega) (by simp; omega) (by simp; omega)]
        · rw [if_neg h1, if_neg h1]
          by_cases h2 : isPunct1 c = true
          · rw [if_pos h2, if_pos h2,
              ih f' g' rest (by omega) (by omega) (by omega)]
          · rw [if_neg h2, if_neg h2]
            by_cases h3 : c = dquoteC
            · rw [if_pos h3, if_pos h3]
              have hs := scanStr_len rest
              rw [ih f' g' (scanStr rest).2 (by omega) (by omega) (by omega)]
            · rw [if_neg h3, if_neg h3]
              by_cases h4 : c = ';'
              · rw [if_pos h4, if_pos h4]
                have hd := len_dropWhile_le (fun x => decide (x ≠ '\n')) rest
                rw [ih f' g' (rest.dropWhile (fun x => decide (x ≠ '\n')))
                  (by omega) (by omega) (by omega)]
              · rw [if_neg h4, if_neg h4]
                have hct : tokenChar c = true :=
                  tokenChar_of_branches (dropWhile_head_false cs hcs1) h1 h2 h3 h4
                have hd : ((c :: rest).dropWhile tokenChar).length < cs.length := by
                  rw [List.dropWhile_cons_of_pos hct]
                  have := len_dropWhile_le tokenChar rest
                  omega
                rw [ih f' g' ((c :: rest).dropWhile tokenChar)
                  (by omega) (by omega) (by omega)]

/-- Helper: any fuel above the input length computes the canonical
tokenization. -/
theorem tokN_of_lt {f : Nat} {cs : List Char} (h : cs.length < f) : tokGoF f cs = tokN cs :=
  tokGoF_irr cs.length f (cs.length + 1) cs (Nat.le_refl _) h (Nat.lt_succ_self _)

/-- Helper: the tokenizer emits a final empty token at the end of input. -/
theorem tokN_nil : tokN [] = [""] := rfl

/-- Helper: a leading whitespace-or-comma character is absorbed by the
leading whitespace class of the tokenizer step. -/
theorem tokGoF_skip {c : Char} (h : (isWsp c || c = ',') = true) (f : Nat) (rest : List Char) :
    tokGoF (f+1) (c :: rest) = tokGoF (f+1) rest := by
  have h2 : List.dropWhile (fun c => isWsp c || decide (c = ',')) (c :: rest)
      = List.dropWhile (fun c => isWsp c || decide (c = ',')) rest := by
    rw [List.dropWhile_cons_of_pos]
    exact h
  unfold tokGoF
  rw [h2]

/-- Helper: a separating space between printed tokens is skipped. -/
theorem tokN_space (s : List Char) : tokN (' ' :: s) = tokN s := by
  show tokGoF (s.length + 1 + 1) (' ' :: s) = tokN s
  rw [tokGoF_skip (by decide) (s.length + 1) s]
  exact tokN_of_lt (by omega)

/-- Helper: a decimal digit is not whitespace. -/
theorem isWsp_digit {c : Char} (h : isDigitC c = true) : isWsp c = false := by
  simp only [isDigitC, Bool.and_eq_true, decide_eq_true_eq] at h
  by_contra hc
  rw [Bool.not_eq_false] at hc
  have hm : c.toNat ∈ wspVals := List.elem_iff.mp hc
  simp [wspVals] at hm
  omega

/-- Helper: a decimal digit is not dispatch punctuation. -/
theorem isPunct1_digit {c : Char} (h : isDigitC c = true) : isPunct1 c = false := by
  simp only [isPunct1, Bool.or_eq_false_iff, decide_eq_false_iff_not, and_assoc]
  exact ⟨isDigitC_ne_of h (by decide), isDigitC_ne_of h (by decide),
    isDigitC_ne_of h (by decide), isDigitC_ne_of h (by decide),
    isDigitC_ne_of h (by decide), isDigitC_ne_of h (by decide),
    isDigitC_ne_of h (by decide), isDigitC_ne_of h (by decide),
    isDigitC_ne_of h (by decide), isDigitC_ne_of h (by decide),
    isDigitC_ne_of h (by decide)⟩

/-- Helper: a decimal digit is a catch-all token character. -/
theorem tokenChar_digit {c : Char} (h : isDigitC c = true) : tokenChar c = true := by
  simp only [tokenChar, Bool.not_eq_eq_eq_not, Bool.not_true, Bool.or_eq_false_iff,
    decide_eq_false_iff_not, and_assoc]
  exact ⟨isWsp_digit h, isDigitC_ne_of h (by decide), isDigitC_ne_of h (by decide),
    isDigitC_ne_of h (by decide), isDigitC_ne_of h (by decide),
    isDigitC_ne_of h (by decide), isDigitC_ne_of h (by decide),
    isDigitC_ne_of h (by decide), isDigitC_ne_of h (by decide),
    isDigitC_ne_of h (by decide), isDigitC_ne_of h (by decide),
    isDigitC_ne_of h (by decide)⟩

/-- Helper: a catch-all token character other than tilde, caret and
at-sign is not dispatch punctuation. -/
theorem isPunct1_false_of {c : Char} (ht : tokenChar c = true)
    (h1 : c ≠ '~') (h2 : c ≠ '^') (h3 : c ≠ '@') : isPunct1 c = false := by
  obtain ⟨_, _, ha, hb, hc1, hc2, hc3, hc4, hc5, _, hc6, _⟩ := tokenChar_spec ht
  simp only [isPunct1, Bool.or_eq_false_iff, decide_eq_false_iff_not, and_assoc]
  exact ⟨ha, hb, hc1, hc2, hc3, hc4, hc5, hc6, h1, h2, h3⟩

/-- Helper: the tokenizer cuts a maximal run of catch-all characters
followed by a delimiter as one word token. -/
theorem tokGoF_word {c : Char} {rest : List Char} (hall : (c :: rest).all tokenChar = true)
    (hp : isPunct1 c = false) (s : List Char) (hd : delimB s) (f : Nat) :
    tokGoF (f+1) ((c :: rest) ++ s) = String.mk (c :: rest) :: tokGoF f s := by
  have hct : tokenChar c = true := by
    simp only [List.all_cons, Bool.and_eq_true] at hall
    exact hall.1
  obtain ⟨hw, hcm, _, _, _, _, _, _, _, hdq, _, hsc⟩ := tokenChar_spec hct
  have h1 : c ≠ '~' := by
    intro he
    rw [he] at hp
    exact absurd hp (by decide)
  have h2 : List.dropWhile (fun c => isWsp c || decide (c = ',')) (c :: (rest ++ s))
      = c :: (rest ++ s) := by
    rw [List.dropWhile_cons_of_neg]
    simp [hw, hcm]
  conv_lhs => unfold tokGoF
  simp only [List.cons_append]
  rw [h2]
  dsimp only
  rw [if_neg h1, if_neg (by simp [hp]), if_neg hdq, if_neg hsc]
  have htw : (c :: (rest ++ s)).takeWhile tokenChar = (c :: rest) ++ s.takeWhile tokenChar := by
    have h := takeWhile_append_all (c :: rest) s hall
    simpa using h
  have hdw : (c :: (rest ++ s)).dropWhile tokenChar = s.dropWhile tokenChar := by
    have h := dropWhile_append_all (c :: rest) s hall
    simpa using h
  rw [htw, hdw]
  cases s with
  | nil => simp
  | cons c2 s2 =>
    have hc2 : tokenChar c2 = false := hd
    have ht2 : List.takeWhile tokenChar (c2 :: s2) = [] := by
      rw [List.takeWhile_cons_of_neg]
      simp [hc2]
    have hd2 : List.dropWhile tokenChar (c2 :: s2) = c2 :: s2 := by
      rw [List.dropWhile_cons_of_neg]
      simp [hc2]
    rw [ht2, hd2]
    simp

/-- Helper: `tokGoF_word` at the canonical fuel. -/
theorem tokN_word {c : Char} {rest : List Char} (hall : (c :: rest).all tokenChar = true)
    (hp : isPunct1 c = false) (s : List Char) (hd : delimB s) :
    tokN ((c :: rest) ++ s) = String.mk (c :: rest) :: tokN s := by
  unfold tokN
  rw [tokGoF_word hall hp s hd,
    tokN_of_lt (show s.length < ((c :: rest) ++ s).length by simp; omega)]
  rfl

/-- Helper: the tokenizer cuts a single punctuation character (other
than tilde) as its own token. -/
theorem tokGoF_punct {c : Char} (hw : (isWsp c || c = ',') = false) (h1 : c ≠ '~')
    (hp : isPunct1 c = true) (s : List Char) (f : Nat) :
    tokGoF (f+1) (c :: s) = String.mk [c] :: tokGoF f s := by
  have h2 : List.dropWhile (fun c => isWsp c || decide (c = ',')) (c :: s) = c :: s := by
    rw [List.dropWhile_cons_of_neg]
    simp only [Bool.or_eq_false_iff, decide_eq_false_iff_not] at hw
    simp [hw.1, hw.2]
  conv_lhs => unfold tokGoF
  rw [h2]
  dsimp only
  rw [if_neg h1, if_pos hp]

/-- Helper: `tokGoF_punct` at the canonical fuel. -/
theorem tokN_punct {c : Char} (hw : (isWsp c || c = ',') = false) (h1 : c ≠ '~')
    (hp : isPunct1 c = true) (s : List Char) :
    tokN (c :: s) = String.mk [c] :: tokN s := by
  unfold tokN
  rw [tokGoF_punct hw h1 hp s, tokN_of_lt (show s.length < (c :: s).length by simp)]
  rfl

/-- Helper: the tokenizer cuts a printed string literal as one token. -/
theorem tokGoF_str (body s : List Char) (f : Nat) :
    tokGoF (f+1) ((dquoteC :: (escapeChars body ++ [dquoteC])) ++ s)
      = String.mk (dquoteC :: (escapeChars body ++ [dquoteC])) :: tokGoF f s := by
  have h2 : List.dropWhile (fun c => isWsp c || decide (c = ','))
      (dquoteC :: (escapeChars body ++ (dquoteC :: s)))
      = dquoteC :: (escapeChars body ++ (dquoteC :: s)) := by
    rw [List.dropWhile_cons_of_neg]
    decide
  conv_lhs => unfold tokGoF
  simp only [List.cons_append, List.append_assoc, List.singleton_append, List.nil_append]
  rw [h2]
  dsimp only
  rw [if_neg (by decide), if_neg (by decide), if_pos rfl, scanStr_escape body s]

/-- Helper: `tokGoF_str` at the canonical fuel. -/
theorem tokN_str (body s : List Char) :
    tokN ((dquoteC :: (escapeChars body ++ [dquoteC])) ++ s)
      = String.mk (dquoteC :: (escapeChars body ++ [dquoteC])) :: tokN s := by
  unfold tokN
  rw [tokGoF_str body s,
    tokN_of_lt (show s.length < ((dquoteC :: (escapeChars body ++ [dquoteC])) ++ s).length by
      simp; omega)]
  rfl

/-- Helper: the accumulator of `String.intercalate.go` hoists out. -/
theorem intercalate_go : ∀ (t : List String) (a b : String),
    String.intercalate.go a " " (b :: t) = a ++ " " ++ String.intercalate.go b " " t := by
  intro t
  induction t with
  | nil => intro a b; rfl
  | cons c t ih =>
    intro a b
    show String.intercalate.go (a ++ " " ++ b) " " (c :: t) = _
    rw [ih (a ++ " " ++ b) c, ih b c]
    simp [String.append_assoc]

/-- Helper: `String.intercalate` over at least two strings peels the
first one and a separator. -/
theorem intercalate_cons_cons (a b : String) (t : List String) :
    String.intercalate " " (a :: b :: t) = a ++ " " ++ String.intercalate " " (b :: t) := by
  show String.intercalate.go a " " (b :: t) = _
  rw [intercalate_go]
  rfl

/-- Helper: the printed pair sequence is the printed flattened sequence. -/
theorem prsP_flatten : ∀ ps, prsP ps = prsL (flattenPairs ps) := by
  intro ps
  induction ps with
  | nil => simp [prsP, flattenPairs, prsL]
  | cons p t ih =>
    obtain ⟨k, v⟩ := p
    simp [prsP, flattenPairs, prsL, ih]

/-- Helper: the token pair sequence is the token flattened sequence. -/
theorem tksP_flatten : ∀ ps, tksP ps = tksL (flattenPairs ps) := by
  intro ps
  induction ps with
  | nil => simp [tksP, flattenPairs, tksL]
  | cons p t ih =>
    obtain ⟨k, v⟩ := p
    simp [tksP, flattenPairs, tksL, ih]

/-- Helper: flattening preserves elementwise well-formedness. -/
theorem flatten_all_wf {g : Nat} : ∀ ps : List (MalType × MalType),
    ps.all (fun kv => wfB g kv.1 && wfB g kv.2) = true →
    (flattenPairs ps).all (fun x => wfB g x) = true := by
  intro ps
  induction ps with
  | nil => intro _; rfl
  | cons p t ih =>
    obtain ⟨k, v⟩ := p
    intro h
    simp only [List.all_cons, Bool.and_eq_true] at h
    simp [flattenPairs, List.all_cons, h.1.1, h.1.2, ih h.2]

/-- Helper: the decimal rendering of an integer is one nonempty word of
token characters headed by a minus sign or a digit. -/
theorem intRepr_shape (i : Int) : ∃ c rest, (intRepr i).data = c :: rest ∧
    (c :: rest).all tokenChar = true ∧ (c = '-' ∨ isDigitC c = true) := by
  obtain ⟨hne, hdig, _⟩ := natRepr_spec i.natAbs
  have hall : (natRepr i.natAbs).all tokenChar = true := by
    rw [List.all_eq_true] at hdig ⊢
    intro x hx
    exact tokenChar_digit (hdig x hx)
  unfold intRepr
  by_cases hi : i < 0
  · rw [if_pos hi]
    refine ⟨'-', natRepr i.natAbs, rfl, ?_, Or.inl rfl⟩
    simp only [List.all_cons, Bool.and_eq_true]
    exact ⟨by decide, hall⟩
  · rw [if_neg hi]
    obtain ⟨c, rest, hdata⟩ : ∃ c rest, natRepr i.natAbs = c :: rest := by
      match hh : natRepr i.natAbs with
      | [] => exact absurd hh hne
      | c :: rest => exact ⟨c, rest, rfl⟩
    refine ⟨c, rest, by rw [show (String.mk (natRepr i.natAbs)).data = natRepr i.natAbs from rfl,
      hdata], by rw [← hdata]; exact hall, Or.inr ?_⟩
    rw [List.all_eq_true] at hdig
    exact hdig c (by rw [hdata]; exact List.mem_cons_self _ _)

/-- Helper: unpacking a well-formed symbol. -/
theorem symbolOkB_spec {s : String} (h : symbolOkB s = true) :
    ∃ c rest, s.data = c :: rest ∧ (c :: rest).all tokenChar = true ∧
      c ≠ '~' ∧ c ≠ '^' ∧ c ≠ '@' ∧ c ≠ ':' := by
  simp only [symbolOkB, Bool.and_eq_true, Bool.not_eq_eq_eq_not, Bool.not_true,
    beq_eq_false_iff_ne, ne_eq, decide_eq_false_iff_not] at h
  obtain ⟨⟨⟨⟨⟨⟨hne, hall⟩, hhead⟩, _⟩, _⟩, _⟩, _⟩ := h
  obtain ⟨c, cs, hdata⟩ : ∃ c cs, s.data = c :: cs := by
    match hd : s.data with
    | [] => rw [hd] at hne; simp at hne
    | c :: cs => exact ⟨c, cs, rfl⟩
  rw [hdata] at hall hhead
  simp at hhead
  refine ⟨c, cs, hdata, hall, ?_, ?_, ?_, ?_⟩ <;> tauto

/-- Helper: a keyword-sentinel string is its sentinel plus its tail. -/
theorem isKw_data {s : String} (hk : isKw s = true) : s.data = kwChar :: s.data.tail := by
  unfold isKw at hk
  match hd : s.data with
  | [] => rw [hd] at hk; simp at hk
  | c :: t =>
    rw [hd] at hk
    simp at hk
    rw [hk]
    rfl

/-- Helper: tokenizing the space-joined printed forms of well-formed
values followed by a delimited remainder. -/
theorem tokSeqL {g : Nat}
    (IH : ∀ v, wfB g v = true → ∀ s, delimB s → tokN ((prs v).data ++ s) = tks v ++ tokN s) :
    ∀ l, l.all (fun x => wfB g x) = true → ∀ s, delimB s →
      tokN ((String.intercalate " " (prsL l)).data ++ s) = tksL l ++ tokN s := by
  intro l
  induction l with
  | nil =>
    intro _ s _
    simp [prsL, tksL, String.intercalate]
  | cons x t ih2 =>
    intro hall s hd
    simp only [List.all_cons, Bool.and_eq_true] at hall
    cases t with
    | nil =>
      rw [show prsL [x] = [prs x] by simp [prsL],
        show String.intercalate " " [prs x] = prs x from rfl,
        show tksL [x] = tks x by simp [tksL]]
      exact IH x hall.1 s hd
    | cons y t2 =>
      have h6 := ih2 hall.2 s hd
      rw [show prsL (x :: y :: t2) = prs x :: prsL (y :: t2) by simp [prsL],
        show prsL (y :: t2) = prs y :: prsL t2 by simp [prsL]] at *
      rw [intercalate_cons_cons]
      simp only [String.data_append, show (" " : String).data = [' '] from rfl,
        List.append_assoc, List.singleton_append, List.cons_append, List.nil_append]
      rw [IH x hall.1 (' ' :: ((String.intercalate " " (prs y :: prsL t2)).data ++ s))
        (show tokenChar ' ' = false by decide)]
      rw [tokN_space, h6]
      rw [show tksL (x :: y :: t2) = tks x ++ tksL (y :: t2) by simp [tksL],
        show tksL (y :: t2) = tks y ++ tksL t2 by simp [tksL]] at *
      simp [List.append_assoc]

/-- Tokenizing the printed form of a well-formed value followed by a
delimited remainder yields its token sequence before the remainder's
tokens. -/
theorem tokSeq : ∀ g v, wfB g v = true → ∀ s, delimB s →
    tokN ((prs v).data ++ s) = tks v ++ tokN s := by
  intro g
  induction g with
  | zero => intro v h s hd; simp [wfB] at h
  | succ g ih =>
    intro v h s hd
    match v with
    | .nil =>
      rw [show prs .nil = "nil" by simp [prs], show tks .nil = ["nil"] by simp [tks]]
      exact tokN_word (by decide) (by decide) s hd
    | .bool false =>
      rw [show prs (.bool false) = "false" by simp [prs],
        show tks (.bool false) = ["false"] by simp [tks]]
      exact tokN_word (by decide) (by decide) s hd
    | .bool true =>
      rw [show prs (.bool true) = "true" by simp [prs],
        show tks (.bool true) = ["true"] by simp [tks]]
      exact tokN_word (by decide) (by decide) s hd
    | .int i =>
      rw [show prs (.int i) = intRepr i by simp [prs],
        show tks (.int i) = [intRepr i] by simp [tks]]
      obtain ⟨c, rest, hdata, hall, hc⟩ := intRepr_shape i
      have hp : isPunct1 c = false := by
        rcases hc with hc | hc
        · rw [hc]; decide
        · exact isPunct1_digit hc
      rw [hdata, tokN_word hall hp s hd, ← hdata]
      rfl
    | .str s0 =>
      by_cases hk : isKw s0 = true
      · have htail : s0.data.tail.all tokenChar = true := by
          simp only [wfB] at h
          rwa [if_pos hk] at h
        rw [show prs (.str s0) = ":" ++ kwBody s0 by simp [prs, hk],
          show tks (.str s0) = [":" ++ kwBody s0] by simp [tks, hk]]
        have hdata : (":" ++ kwBody s0).data = ':' :: s0.data.tail := rfl
        have hall : (':' :: s0.data.tail).all tokenChar = true := by
          simp only [List.all_cons, Bool.and_eq_true]
          exact ⟨by decide, htail⟩
        rw [hdata, tokN_word hall (by decide) s hd, ← hdata]
        rfl
      · rw [show prs (.str s0) = pr_str_transform s0 by simp [prs, hk],
          show tks (.str s0) = [pr_str_transform s0] by simp [tks, hk]]
        have hdata : (pr_str_transform s0).data
            = dquoteC :: (escapeChars s0.data ++ [dquoteC]) := rfl
        rw [hdata, tokN_str s0.data s, ← hdata]
        rfl
    | .symbol s0 =>
      have hs : symbolOkB s0 = true := by simpa only [wfB] using h
      rw [show prs (.symbol s0) = s0 by simp [prs], show tks (.symbol s0) = [s0] by simp [tks]]
      obtain ⟨c, rest, hdata, hall, h1, h2, h3, _⟩ := symbolOkB_spec hs
      have hct : tokenChar c = true := by
        have hall2 := hall
        simp only [List.all_cons, Bool.and_eq_true] at hall2
        exact hall2.1
      rw [hdata, tokN_word hall (isPunct1_false_of hct h1 h2 h3) s hd, ← hdata]
      rfl
    | .list l m =>
      simp only [wfB, Bool.and_eq_true] at h
      rw [show prs (.list l m) = "(" ++ String.intercalate " " (prsL l) ++ ")" by simp [prs],
        show tks (.list l m) = "(" :: (tksL l ++ [")"]) by simp [tks]]
      simp only [String.data_append, show ("(" : String).data = ['('] from rfl,
        show (")" : String).data = [')'] from rfl, List.append_assoc,
        List.singleton_append, List.cons_append, List.nil_append]
      rw [tokN_punct (by decide) (by decide) (by decide)
        ((String.intercalate " " (prsL l)).data ++ (')' :: s))]
      rw [tokSeqL ih l h.1 (')' :: s) (show tokenChar ')' = false by decide)]
      rw [tokN_punct (by decide) (by decide) (by decide) s]
    | .vector l m =>
      simp only [wfB, Bool.and_eq_true] at h
      rw [show prs (.vector l m) = "[" ++ String.intercalate " " (prsL l) ++ "]" by simp [prs],
        show tks (.vector l m) = "[" :: (tksL l ++ ["]"]) by simp [tks]]
      simp only [String.data_append, show ("[" : String).data = ['['] from rfl,
        show ("]" : String).data = [']'] from rfl, List.append_assoc,
        List.singleton_append, List.cons_append, List.nil_append]
      rw [tokN_punct (by decide) (by decide) (by decide)
        ((String.intercalate " " (prsL l)).data ++ (']' :: s))]
      rw [tokSeqL ih l h.1 (']' :: s) (show tokenChar ']' = false by decide)]
      rw [tokN_punct (by decide) (by decide) (by decide) s]
    | .hashMap ps m =>
      simp only [wfB, Bool.and_eq_true] at h
      rw [show prs (.hashMap ps m)
          = String.mk [lbraceC] ++ String.intercalate " " (prsP ps) ++ String.mk [rbraceC]
          by simp [prs],
        show tks (.hashMap ps m)
          = String.mk [lbraceC] :: (tksP ps ++ [String.mk [rbraceC]]) by simp [tks]]
      rw [prsP_flatten, tksP_flatten]
      simp only [String.data_append, show (String.mk [lbraceC]).data = [lbraceC] from rfl,
        show (String.mk [rbraceC]).data = [rbraceC] from rfl, List.append_assoc,
        List.singleton_append, List.cons_append, List.nil_append]
      rw [tokN_punct (by decide) (by decide) (by decide)
        ((String.intercalate " " (prsL (flattenPairs ps))).data ++ (rbraceC :: s))]
      rw [tokSeqL ih (flattenPairs ps) (flatten_all_wf ps h.1.1) (rbraceC :: s)
        (show tokenChar rbraceC = false by decide)]
      rw [tokN_punct (by decide) (by decide) (by decide) s]
    | .function b => simp [wfB] at h
    | .malFunction p a e im => simp [wfB] at h
    | .atom cid => simp [wfB] at h

/-- Helper: the ends of an all-token-character list are not whitespace. -/
theorem ends_of_all_tokenChar {l : List Char} (hall : l.all tokenChar = true) :
    (∀ c, l.head? = some c → isWsp c = false) ∧
    (∀ c, l.getLast? = some c → isWsp c = false) := by
  rw [List.all_eq_true] at hall
  constructor
  · intro c hc
    obtain ⟨ys, rfl⟩ := List.head?_eq_some_iff.mp hc
    exact (tokenChar_spec (hall c (List.mem_cons_self _ _))).1
  · intro c hc
    obtain ⟨ys, rfl⟩ := List.getLast?_eq_some_iff.mp hc
    exact (tokenChar_spec (hall c (by simp))).1

/-- Helper: the ends of a bracket-wrapped list are its brackets. -/
theorem ends_wrap {o : Char} {mid : List Char} {c2 : Char}
    (ho : isWsp o = false) (hc : isWsp c2 = false) :
    (∀ c, (o :: (mid ++ [c2])).head? = some c → isWsp c = false) ∧
    (∀ c, (o :: (mid ++ [c2])).getLast? = some c → isWsp c = false) := by
  constructor
  · intro c h
    simp only [List.head?_cons, Option.some.injEq] at h
    subst h
    exact ho
  · intro c h
    rw [show o :: (mid ++ [c2]) = (o :: mid) ++ [c2] from by simp,
      List.getLast?_concat] at h
    simp only [Option.some.injEq] at h
    subst h
    exact hc

/-- Helper: the printed form of a well-formed value neither starts nor
ends with whitespace, so `str::trim` leaves it unchanged. -/
theorem prs_ends : ∀ g v, wfB g v = true →
    (∀ c, (prs v).data.head? = some c → isWsp c = false) ∧
    (∀ c, (prs v).data.getLast? = some c → isWsp c = false) := by
  intro g
  match g with
  | 0 => intro v h; simp [wfB] at h
  | g+1 =>
    intro v h
    match v with
    | .nil =>
      rw [show prs .nil = "nil" by simp [prs]]
      exact ends_of_all_tokenChar (by decide)
    | .bool false =>
      rw [show prs (.bool false) = "false" by simp [prs]]
      exact ends_of_all_tokenChar (by decide)
    | .bool true =>
      rw [show prs (.bool true) = "true" by simp [prs]]
      exact ends_of_all_tokenChar (by decide)
    | .int i =>
      rw [show prs (.int i) = intRepr i by simp [prs]]
      obtain ⟨c, rest, hdata, hall, _⟩ := intRepr_shape i
      rw [hdata]
      exact ends_of_all_tokenChar hall
    | .str s0 =>
      by_cases hk : isKw s0 = true
      · have htail : s0.data.tail.all tokenChar = true := by
          simp only [wfB] at h
          rwa [if_pos hk] at h
        rw [show prs (.str s0) = ":" ++ kwBody s0 by simp [prs, hk],
          show (":" ++ kwBody s0).data = ':' :: s0.data.tail from rfl]
        apply ends_of_all_tokenChar
        simp only [List.all_cons, Bool.and_eq_true]
        exact ⟨by decide, htail⟩
      · rw [show prs (.str s0) = pr_str_transform s0 by simp [prs, hk],
          show (pr_str_transform s0).data
            = dquoteC :: (escapeChars s0.data ++ [dquoteC]) from rfl]
        exact ends_wrap (by decide) (by decide)
    | .symbol s0 =>
      have hs : symbolOkB s0 = true := by simpa only [wfB] using h
      rw [show prs (.symbol s0) = s0 by simp [prs]]
      obtain ⟨c, rest, hdata, hall, _⟩ := symbolOkB_spec hs
      rw [hdata]
      exact ends_of_all_tokenChar hall
    | .list l m =>
      rw [show prs (.list l m) = "(" ++ String.intercalate " " (prsL l) ++ ")" by simp [prs],
        show ("(" ++ String.intercalate " " (prsL l) ++ ")").data
          = '(' :: ((String.intercalate " " (prsL l)).data ++ [')']) from by
          simp [String.data_append]]
      exact ends_wrap (by decide) (by decide)
    | .vector l m =>
      rw [show prs (.vector l m) = "[" ++ String.intercalate " " (prsL l) ++ "]" by simp [prs],
        show ("[" ++ String.intercalate " " (prsL l) ++ "]").data
          = '[' :: ((String.intercalate " " (prsL l)).data ++ [']']) from by
          simp [String.data_append]]
      exact ends_wrap (by decide) (by decide)
    | .hashMap ps m =>
      rw [show prs (.hashMap ps m)
          = String.mk [lbraceC] ++ String.intercalate " " (prsP ps) ++ String.mk [rbraceC]
          by simp [prs],
        show (String.mk [lbraceC] ++ String.intercalate " " (prsP ps)
            ++ String.mk [rbraceC]).data
          = lbraceC :: ((String.intercalate " " (prsP ps)).data ++ [rbraceC]) from by
          simp [String.data_append]]
      exact ends_wrap (by decide) (by decide)
    | .function b => simp [wfB] at h
    | .malFunction p a e im => simp [wfB] at h
    | .atom cid => simp [wfB] at h

/-- Helper: `str::trim` is the identity on a string whose ends are not
whitespace. -/
theorem trim_id {cs : List Char} (h1 : ∀ c, cs.head? = some c → isWsp c = false)
    (h2 : ∀ c, cs.getLast? = some c → isWsp c = false) : trimChars cs = cs := by
  unfold trimChars
  have e1 : cs.dropWhile isWsp = cs := by
    cases cs with
    | nil => rfl
    | cons c t =>
      rw [List.dropWhile_cons_of_neg]
      simp [h1 c rfl]
  rw [e1]
  have e2 : cs.reverse.dropWhile isWsp = cs.reverse := by
    cases hrev : cs.reverse with
    | nil => rfl
    | cons c t =>
      rw [List.dropWhile_cons_of_neg]
      have hlast : cs.getLast? = some c := by
        rw [← List.head?_reverse, hrev]
        rfl
      simp [h2 c hlast]
  rw [e2, List.reverse_reverse]

/-- Tokenizing the printed form of a well-formed value yields its token
sequence plus the final empty token. -/
theorem tokenize_prs {g : Nat} {v : MalType} (h : wfB g v = true) :
    tokenize (prs v) = tks v ++ [""] := by
  obtain ⟨h1, h2⟩ := prs_ends g v h
  show tokGoF ((trimChars (prs v).data).length + 1) (trimChars (prs v).data) = _
  rw [trim_id h1 h2]
  have hts := tokSeq g v h [] trivial
  rw [List.append_nil] at hts
  rw [show tokGoF ((prs v).data.length + 1) (prs v).data = tokN (prs v).data from rfl,
    hts, tokN_nil]

/-- Helper: the `mapM` loop of `pr_str` over well-formed elements, with
an explicit accumulator. -/
theorem mapM_pr_loop {g : Nat} {st : Store}
    (IH : ∀ v, wfB g v = true → pr_str g st true v = some (prs v)) :
    ∀ l acc, l.all (fun x => wfB g x) = true →
      List.mapM.loop (pr_str g st true) l acc = some (acc.reverse ++ prsL l) := by
  intro l
  induction l with
  | nil =>
    intro acc _
    simp [List.mapM.loop, prsL]
  | cons x t ih =>
    intro acc hall
    simp only [List.all_cons, Bool.and_eq_true] at hall
    rw [show prsL (x :: t) = prs x :: prsL t by simp [prsL]]
    simp only [List.mapM.loop, IH x hall.1, Option.bind_eq_bind, Option.some_bind]
    rw [ih (prs x :: acc) hall.2]
    simp

/-- Helper: `pr_str` maps each well-formed element to its printed form. -/
theorem mapM_pr {g : Nat} {st : Store}
    (IH : ∀ v, wfB g v = true → pr_str g st true v = some (prs v)) :
    ∀ l, l.all (fun x => wfB g x) = true → l.mapM (pr_str g st true) = some (prsL l) := by
  intro l hall
  have h := mapM_pr_loop IH l [] hall
  simpa using h

/-- `pr_str` in readable mode agrees with the proof-layer rendering on
every well-formed value, whatever the store and the fuel that
certifies well-formedness. -/
theorem pr_str_prs : ∀ g v, wfB g v = true → ∀ st, pr_str g st true v = some (prs v) := by
  intro g
  induction g with
  | zero => intro v h; simp [wfB] at h
  | succ g ih =>
    intro v h st
    match v with
    | .nil => simp [pr_str, prs]
    | .bool b => cases b <;> simp [pr_str, prs]
    | .int i => simp [pr_str, prs]
    | .str s0 =>
      by_cases hk : isKw s0 = true
      · simp [pr_str, prs, hk]
      · simp [pr_str, prs, hk]
    | .symbol s0 => simp [pr_str, prs]
    | .list l m =>
      simp only [wfB, Bool.and_eq_true] at h
      have hm := mapM_pr (fun v hv => ih v hv st) l h.1
      rw [show prs (.list l m) = "(" ++ String.intercalate " " (prsL l) ++ ")" by simp [prs]]
      simp only [pr_str]
      rw [hm]
      rfl
    | .vector l m =>
      simp only [wfB, Bool.and_eq_true] at h
      have hm := mapM_pr (fun v hv => ih v hv st) l h.1
      rw [show prs (.vector l m) = "[" ++ String.intercalate " " (prsL l) ++ "]" by simp [prs]]
      simp only [pr_str]
      rw [hm]
      rfl
    | .hashMap ps m =>
      simp only [wfB, Bool.and_eq_true] at h
      have hm := mapM_pr (fun v hv => ih v hv st) (flattenPairs ps) (flatten_all_wf ps h.1.1)
      rw [show prs (.hashMap ps m)
          = String.mk [lbraceC] ++ String.intercalate " " (prsP ps) ++ String.mk [rbraceC]
          by simp [prs], prsP_flatten]
      simp only [pr_str]
      rw [hm]
      rfl
    | .function b => simp [wfB] at h
    | .malFunction p a e im => simp [wfB] at h
    | .atom cid => simp [wfB] at h

/-- Helper: every value has positive nesting depth. -/
theorem depthM_pos : ∀ v, 1 ≤ depthM v := by
  intro v
  cases v <;> simp [depthM]

/-- Helper: an element is at most as deep as its list. -/
theorem depthL_mem : ∀ (l : List MalType) {x : MalType}, x ∈ l → depthM x ≤ depthL l := by
  intro l
  induction l with
  | nil => intro x hx; simp at hx
  | cons a t ih =>
    intro x hx
    rcases List.mem_cons.mp hx with rfl | hx
    · simp only [depthL]
      omega
    · have h2 := ih hx
      simp only [depthL]
      omega

/-- Helper: a key or value is at most as deep as its pair list. -/
theorem depthP_mem : ∀ (ps : List (MalType × MalType)) {kv : MalType × MalType}, kv ∈ ps →
    depthM kv.1 ≤ depthP ps ∧ depthM kv.2 ≤ depthP ps := by
  intro ps
  induction ps with
  | nil => intro kv hkv; simp at hkv
  | cons p t ih =>
    intro kv hkv
    obtain ⟨k, v⟩ := p
    rcases List.mem_cons.mp hkv with rfl | hkv
    · simp only [depthP]
      omega
    · have h2 := ih hkv
      simp only [depthP]
      omega

/-- Helper: `cmpLWith` only depends on the comparison at left elements. -/
theorem cmpLWith_congr {c1 c2 : MalType → MalType → Ordering} :
    ∀ xs ys, (∀ x ∈ xs, ∀ y, c1 x y = c2 x y) → cmpLWith c1 xs ys = cmpLWith c2 xs ys := by
  intro xs
  induction xs with
  | nil => intro ys _; cases ys <;> rfl
  | cons x t ih =>
    intro ys hx
    cases ys with
    | nil => rfl
    | cons y ys2 =>
      simp only [cmpLWith]
      rw [hx x (List.mem_cons_self _ _) y,
        ih ys2 (fun a ha y2 => hx a (List.mem_cons_of_mem _ ha) y2)]

/-- Helper: `cmpPWith` only depends on the comparison at left entries. -/
theorem cmpPWith_congr {c1 c2 : MalType → MalType → Ordering} :
    ∀ xs ys, (∀ kv ∈ xs, (∀ y, c1 kv.1 y = c2 kv.1 y) ∧ (∀ y, c1 kv.2 y = c2 kv.2 y)) →
      cmpPWith c1 xs ys = cmpPWith c2 xs ys := by
  intro xs
  induction xs with
  | nil => intro ys _; cases ys <;> rfl
  | cons p t ih =>
    intro ys hx
    obtain ⟨k, v⟩ := p
    cases ys with
    | nil => rfl
    | cons q ys2 =>
      obtain ⟨k2, v2⟩ := q
      simp only [cmpPWith]
      have h1 := hx (k, v) (List.mem_cons_self _ _)
      rw [h1.1 k2, h1.2 v2,
        ih ys2 (fun a ha => hx a (List.mem_cons_of_mem _ ha))]

/-- The derived comparison does not depend on the fuel once it covers
the left argument's nesting depth. -/
theorem cmpM_irr : ∀ n, ∀ a b f g, depthM a ≤ n → depthM a ≤ f → depthM a ≤ g →
    cmpM f a b = cmpM g a b := by
  intro n
  induction n with
  | zero =>
    intro a b f g hn _ _
    have := depthM_pos a
    omega
  | succ n ih =>
    intro a b f g hn hf hg
    have h1 := depthM_pos a
    match f, Nat.lt_of_lt_of_le (Nat.lt_of_lt_of_le (Nat.zero_lt_one) h1) hf,
        g, Nat.lt_of_lt_of_le (Nat.lt_of_lt_of_le (Nat.zero_lt_one) h1) hg with
    | f1+1, _, g1+1, _ =>
      match a with
      | .nil => cases b <;> rfl
      | .bool x => cases b <;> rfl
      | .int x => cases b <;> rfl
      | .str x => cases b <;> rfl
      | .symbol x => cases b <;> rfl
      | .function x => cases b <;> rfl
      | .atom x => cases b <;> rfl
      | .list xs xm =>
        have hdep : depthM (MalType.list xs xm) = 1 + max (depthL xs) (depthM xm) := by
          simp [depthM]
        cases b <;> try rfl
        rename_i ys ym
        simp only [cmpM]
        rw [cmpLWith_congr xs ys (fun x hx y => ih x y f1 g1
            (by have := depthL_mem xs hx; omega)
            (by have := depthL_mem xs hx; omega)
            (by have := depthL_mem xs hx; omega)),
          ih xm ym f1 g1 (by omega) (by omega) (by omega)]
      | .vector xs xm =>
        have hdep : depthM (MalType.vector xs xm) = 1 + max (depthL xs) (depthM xm) := by
          simp [depthM]
        cases b <;> try rfl
        rename_i ys ym
        simp only [cmpM]
        rw [cmpLWith_congr xs ys (fun x hx y => ih x y f1 g1
            (by have := depthL_mem xs hx; omega)
            (by have := depthL_mem xs hx; omega)
            (by have := depthL_mem xs hx; omega)),
          ih xm ym f1 g1 (by omega) (by omega) (by omega)]
      | .hashMap xs xm =>
        have hdep : depthM (MalType.hashMap xs xm) = 1 + max (depthP xs) (depthM xm) := by
          simp [depthM]
        cases b <;> try rfl
        rename_i ys ym
        simp only [cmpM]
        rw [cmpPWith_congr xs ys (fun kv hkv => by
            have hkd := depthP_mem xs hkv
            exact ⟨fun y => ih kv.1 y f1 g1 (by omega) (by omega) (by omega),
              fun y => ih kv.2 y f1 g1 (by omega) (by omega) (by omega)⟩),
          ih xm ym f1 g1 (by omega) (by omega) (by omega)]
      | .malFunction p a1 e im =>
        have hdep : depthM (MalType.malFunction p a1 e im) = 1 + max (depthM p) (depthM a1) := by
          simp [depthM]
        cases b <;> try rfl
        rename_i p2 a2 e2 im2
        simp only [cmpM]
        rw [ih p p2 f1 g1 (by omega) (by omega) (by omega),
          ih a1 a2 f1 g1 (by omega) (by omega) (by omega)]

/-- Helper: a bound on all elements bounds the list depth. -/
theorem depthL_le {n : Nat} : ∀ l : List MalType, (∀ x ∈ l, depthM x ≤ n) → depthL l ≤ n := by
  intro l
  induction l with
  | nil => intro _; simp [depthL]
  | cons x t ih =>
    intro hx
    have h1 := hx x (List.mem_cons_self _ _)
    have h2 := ih (fun y hy => hx y (List.mem_cons_of_mem _ hy))
    simp only [depthL]
    omega

/-- Helper: a bound on all keys and values bounds the pair-list depth. -/
theorem depthP_le {n : Nat} : ∀ ps : List (MalType × MalType),
    (∀ kv ∈ ps, depthM kv.1 ≤ n ∧ depthM kv.2 ≤ n) → depthP ps ≤ n := by
  intro ps
  induction ps with
  | nil => intro _; simp [depthP]
  | cons p t ih =>
    intro hx
    obtain ⟨k, v⟩ := p
    have h1 := hx (k, v) (List.mem_cons_self _ _)
    have h2 := ih (fun q hq => hx q (List.mem_cons_of_mem _ hq))
    simp only [depthP] at *
    omega

/-- Helper: well-formedness at fuel `g` bounds the depth by `g + 1` (the
extra level pays for the `nil` metadata). -/
theorem wfB_depth : ∀ g v, wfB g v = true → depthM v ≤ g + 1 := by
  intro g
  induction g with
  | zero => intro v h; simp [wfB] at h
  | succ g ih =>
    intro v h
    match v with
    | .nil => simp [depthM]
    | .bool b => simp [depthM]
    | .int i => simp [depthM]
    | .str s0 => simp [depthM]
    | .symbol s0 => simp [depthM]
    | .list l m =>
      simp only [wfB, Bool.and_eq_true] at h
      obtain rfl : m = .nil := by
        cases m <;> first | rfl | simp [isNilM] at h
      have hall := List.all_eq_true.mp h.1
      have hl : depthL l ≤ g + 1 := depthL_le l (fun x hx => ih x (hall x hx))
      have hd : depthM (MalType.list l MalType.nil)
          = 1 + max (depthL l) (depthM MalType.nil) := by simp [depthM]
      have hn : depthM MalType.nil = 1 := by simp [depthM]
      omega
    | .vector l m =>
      simp only [wfB, Bool.and_eq_true] at h
      obtain rfl : m = .nil := by
        cases m <;> first | rfl | simp [isNilM] at h
      have hall := List.all_eq_true.mp h.1
      have hl : depthL l ≤ g + 1 := depthL_le l (fun x hx => ih x (hall x hx))
      have hd : depthM (MalType.vector l MalType.nil)
          = 1 + max (depthL l) (depthM MalType.nil) := by simp [depthM]
      have hn : depthM MalType.nil = 1 := by simp [depthM]
      omega
    | .hashMap ps m =>
      simp only [wfB, Bool.and_eq_true] at h
      obtain rfl : m = .nil := by
        cases m <;> first | rfl | simp [isNilM] at h
      have hall := List.all_eq_true.mp h.1.1
      have hp : depthP ps ≤ g + 1 := depthP_le ps (fun kv hkv => by
        have h2 := hall kv hkv
        rw [Bool.and_eq_true] at h2
        exact ⟨ih kv.1 h2.1, ih kv.2 h2.2⟩)
      have hd : depthM (MalType.hashMap ps MalType.nil)
          = 1 + max (depthP ps) (depthM MalType.nil) := by simp [depthM]
      have hn : depthM MalType.nil = 1 := by simp [depthM]
      omega
    | .function b => simp [wfB] at h
    | .malFunction p a e im => simp [wfB] at h
    | .atom cid => simp [wfB] at h

/-- Helper: elementwise token-length bounds the list depth. -/
theorem depthL_le_tksL : ∀ l : List MalType, (∀ x ∈ l, depthM x ≤ (tks x).length) →
    depthL l ≤ (tksL l).length := by
  intro l
  induction l with
  | nil => intro _; simp [depthL, tksL]
  | cons x t ih =>
    intro hx
    have h1 := hx x (List.mem_cons_self _ _)
    have h2 := ih (fun y hy => hx y (List.mem_cons_of_mem _ hy))
    rw [show tksL (x :: t) = tks x ++ tksL t by simp [tksL]]
    simp only [depthL, List.length_append]
    omega

/-- Helper: entrywise token-length bounds the pair-list depth. -/
theorem depthP_le_tksP : ∀ ps : List (MalType × MalType),
    (∀ kv ∈ ps, depthM kv.1 ≤ (tks kv.1).length ∧ depthM kv.2 ≤ (tks kv.2).length) →
    depthP ps ≤ (tksP ps).length := by
  intro ps
  induction ps with
  | nil => intro _; simp [depthP, tksP]
  | cons p t ih =>
    intro hx
    obtain ⟨k, v⟩ := p
    have h1 := hx (k, v) (List.mem_cons_self _ _)
    have h2 := ih (fun q hq => hx q (List.mem_cons_of_mem _ hq))
    rw [show tksP ((k, v) :: t) = tks k ++ (tks v ++ tksP t) by simp [tksP]]
    simp only [depthP, List.length_append] at *
    omega

/-- Helper: a well-formed value is at most as deep as its token count. -/
theorem depth_le_tks : ∀ g v, wfB g v = true → depthM v ≤ (tks v).length := by
  intro g
  induction g with
  | zero => intro v h; simp [wfB] at h
  | succ g ih =>
    intro v h
    match v with
    | .nil =>
      rw [show tks .nil = ["nil"] by simp [tks]]
      simp [depthM]
    | .bool false =>
      rw [show tks (.bool false) = ["false"] by simp [tks]]
      simp [depthM]
    | .bool true =>
      rw [show tks (.bool true) = ["true"] by simp [tks]]
      simp [depthM]
    | .int i =>
      rw [show tks (.int i) = [intRepr i] by simp [tks]]
      simp [depthM]
    | .str s0 =>
      by_cases hk : isKw s0 = true
      · rw [show tks (.str s0) = [":" ++ kwBody s0] by simp [tks, hk]]
        simp [depthM]
      · rw [show tks (.str s0) = [pr_str_transform s0] by simp [tks, hk]]
        simp [depthM]
    | .symbol s0 =>
      rw [show tks (.symbol s0) = [s0] by simp [tks]]
      simp [depthM]
    | .list l m =>
      simp only [wfB, Bool.and_eq_true] at h
      obtain rfl : m = .nil := by
        cases m <;> first | rfl | simp [isNilM] at h
      have hall := List.all_eq_true.mp h.1
      have hl := depthL_le_tksL l (fun x hx => ih x (hall x hx))
      rw [show tks (.list l .nil) = "(" :: (tksL l ++ [")"]) by simp [tks]]
      have hd : depthM (MalType.list l MalType.nil)
          = 1 + max (depthL l) (depthM MalType.nil) := by simp [depthM]
      have hn : depthM MalType.nil = 1 := by simp [depthM]
      simp only [List.length_cons, List.length_append]
      omega
    | .vector l m =>
      simp only [wfB, Bool.and_eq_true] at h
      obtain rfl : m = .nil := by
        cases m <;> first | rfl | simp [isNilM] at h
      have hall := List.all_eq_true.mp h.1
      have hl := depthL_le_tksL l (fun x hx => ih x (hall x hx))
      rw [show tks (.vector l .nil) = "[" :: (tksL l ++ ["]"]) by simp [tks]]
      have hd : depthM (MalType.vector l MalType.nil)
          = 1 + max (depthL l) (depthM MalType.nil) := by simp [depthM]
      have hn : depthM MalType.nil = 1 := by simp [depthM]
      simp only [List.length_cons, List.length_append]
      omega
    | .hashMap ps m =>
      simp only [wfB, Bool.and_eq_true] at h
      obtain rfl : m = .nil := by
        cases m <;> first | rfl | simp [isNilM] at h
      have hall := List.all_eq_true.mp h.1.1
      have hp := depthP_le_tksP ps (fun kv hkv => by
        have h2 := hall kv hkv
        rw [Bool.and_eq_true] at h2
        exact ⟨ih kv.1 h2.1, ih kv.2 h2.2⟩)
      rw [show tks (.hashMap ps .nil)
          = String.mk [lbraceC] :: (tksP ps ++ [String.mk [rbraceC]]) by simp [tks]]
      have hd : depthM (MalType.hashMap ps MalType.nil)
          = 1 + max (depthP ps) (depthM MalType.nil) := by simp [depthM]
      have hn : depthM MalType.nil = 1 := by simp [depthM]
      simp only [List.length_cons, List.length_append]
      omega
    | .function b => simp [wfB] at h
    | .malFunction p a e im => simp [wfB] at h
    | .atom cid => simp [wfB] at h

/-- Helper: only `nil` passes `isNilM`. -/
theorem isNilM_true {m : MalType} (h : isNilM m = true) : m = .nil := by
  cases m <;> first | rfl | simp [isNilM] at h

/-- Helper: boolean equality with `gt` means equality. -/
theorem ordering_beq_gt {o : Ordering} (h : (o == Ordering.gt) = true) : o = Ordering.gt := by
  cases o <;> revert h <;> decide

/-- Helper: `keysGt` gives the comparison fact at every member. -/
theorem keysGt_mem {f : Nat} {k : MalType} : ∀ t, keysGt f k t = true →
    ∀ p ∈ t, cmpM f p.1 k = Ordering.gt := by
  intro t
  induction t with
  | nil => intro _ p hp; simp at hp
  | cons q t2 ih =>
    intro h p hp
    obtain ⟨k2, v2⟩ := q
    simp only [keysGt, Bool.and_eq_true] at h
    rcases List.mem_cons.mp hp with rfl | hp
    · exact ordering_beq_gt h.1
    · exact ih h.2 p hp

/-- Helper: `keysGt` is fuel-irrelevant above the keys' depths. -/
theorem keysGt_irr {g f : Nat} {k : MalType} : ∀ t,
    (∀ p ∈ t, depthM p.1 ≤ g ∧ depthM p.1 ≤ f) →
    keysGt g k t = keysGt f k t := by
  intro t
  induction t with
  | nil => intro _; rfl
  | cons q t2 ih =>
    intro hd
    obtain ⟨k2, v2⟩ := q
    have h1 := hd (k2, v2) (List.mem_cons_self _ _)
    simp only [keysGt]
    rw [cmpM_irr (depthM k2) k2 k g f (Nat.le_refl _) h1.1 h1.2,
      ih (fun p hp => hd p (List.mem_cons_of_mem _ hp))]

/-- Helper: `sortedKeys` is fuel-irrelevant above the keys' depths. -/
theorem sortedKeys_irr {g f : Nat} : ∀ ps : List (MalType × MalType),
    (∀ p ∈ ps, depthM p.1 ≤ g ∧ depthM p.1 ≤ f) →
    sortedKeys g ps = sortedKeys f ps := by
  intro ps
  induction ps with
  | nil => intro _; rfl
  | cons p t ih =>
    intro hd
    obtain ⟨k, v⟩ := p
    simp only [sortedKeys]
    rw [keysGt_irr t (fun q hq => hd q (List.mem_cons_of_mem _ hq)),
      ih (fun q hq => hd q (List.mem_cons_of_mem _ hq))]

/-- Helper: inserting a key greater than every stored key appends. -/
theorem insert_gt {f : Nat} {k v : MalType} : ∀ m,
    (∀ q ∈ m, cmpM f k q.1 = Ordering.gt) →
    insertPair f m k v = m ++ [(k, v)] := by
  intro m
  induction m with
  | nil => intro _; rfl
  | cons q t ih =>
    intro hq
    obtain ⟨k0, v0⟩ := q
    have h0 : cmpM f k k0 = Ordering.gt := hq (k0, v0) (List.mem_cons_self _ _)
    simp only [insertPair, h0]
    rw [ih (fun q2 hq2 => hq q2 (List.mem_cons_of_mem _ hq2))]
    rfl

/-- Helper: folding `insert` over an already strictly ascending pair
sequence rebuilds exactly that sequence. -/
theorem foldl_insert_sorted {f : Nat} : ∀ (ps acc : List (MalType × MalType)),
    sortedKeys f ps = true → (∀ p ∈ ps, ∀ q ∈ acc, cmpM f p.1 q.1 = Ordering.gt) →
    ps.foldl (fun m kv => insertPair f m kv.1 kv.2) acc = acc ++ ps := by
  intro ps
  induction ps with
  | nil => intro acc _ _; simp
  | cons p t ih =>
    intro acc hs hgt
    obtain ⟨k, v⟩ := p
    simp only [sortedKeys, Bool.and_eq_true] at hs
    simp only [List.foldl_cons]
    rw [insert_gt acc (fun q hq => hgt (k, v) (List.mem_cons_self _ _) q hq)]
    rw [ih (acc ++ [(k, v)]) hs.2 (fun p2 hp q hq => by
      rcases List.mem_append.mp hq with hq | hq
      · exact hgt p2 (List.mem_cons_of_mem _ hp) q hq
      · have hq2 : q = (k, v) := by simpa using hq
        subst hq2
        exact keysGt_mem t hs.1 p2 hp)]
    simp

/-- Helper: flattening doubles the length. -/
theorem flattenPairs_length : ∀ ps : List (MalType × MalType),
    (flattenPairs ps).length = 2 * ps.length := by
  intro ps
  induction ps with
  | nil => rfl
  | cons p t ih =>
    obtain ⟨k, v⟩ := p
    simp only [flattenPairs, List.length_cons, ih]
    omega

/-- Helper: chunking a flattened pair list recovers the pairs. -/
theorem pairsOfFlat_flatten : ∀ ps : List (MalType × MalType),
    pairsOfFlat (flattenPairs ps) = ps := by
  intro ps
  induction ps with
  | nil => rfl
  | cons p t ih =>
    obtain ⟨k, v⟩ := p
    simp [flattenPairs, pairsOfFlat, ih]

/-- `hashmap!` over the flattened entries of a strictly ascending pair
sequence rebuilds exactly that map. -/
theorem mkHashMap_sorted {ps : List (MalType × MalType)} {f : Nat}
    (hs : sortedKeys f ps = true) :
    mkHashMap f (flattenPairs ps) = .ok (.hashMap ps .nil) := by
  unfold mkHashMap
  rw [if_neg (by rw [flattenPairs_length]; omega)]
  rw [pairsOfFlat_flatten]
  rw [foldl_insert_sorted ps [] hs (fun p _ q hq => by simp at hq)]
  rfl

/-- Helper: an element's token count is bounded by the list's. -/
theorem tksL_mem_le {x : MalType} : ∀ l : List MalType, x ∈ l →
    (tks x).length ≤ (tksL l).length := by
  intro l
  induction l with
  | nil => intro hx; simp at hx
  | cons y t ih =>
    intro hx
    rw [show tksL (y :: t) = tks y ++ tksL t by simp [tksL]]
    rcases List.mem_cons.mp hx with rfl | hx
    · simp [List.length_append]
    · have h2 := ih hx
      simp only [List.length_append]
      omega

/-- Helper: keys and values occur in the flattened entry list. -/
theorem mem_flatten : ∀ ps : List (MalType × MalType), ∀ kv ∈ ps,
    kv.1 ∈ flattenPairs ps ∧ kv.2 ∈ flattenPairs ps := by
  intro ps
  induction ps with
  | nil => intro kv hkv; simp at hkv
  | cons p t ih =>
    intro kv hkv
    obtain ⟨k, v⟩ := p
    rcases List.mem_cons.mp hkv with rfl | hkv
    · constructor <;> simp [flattenPairs]
    · have h2 := ih kv hkv
      constructor <;> simp [flattenPairs, h2.1, h2.2]

/-- Helper: the first token of a well-formed value's token sequence is
never a closing delimiter. -/
theorem tks_head : ∀ g v, wfB g v = true → ∃ t ts0, tks v = t :: ts0 ∧
    t ≠ ")" ∧ t ≠ "]" ∧ t ≠ String.mk [rbraceC] := by
  intro g
  match g with
  | 0 => intro v h; simp [wfB] at h
  | g+1 =>
    intro v h
    match v with
    | .nil => exact ⟨"nil", [], by simp [tks], by decide, by decide, by decide⟩
    | .bool false => exact ⟨"false", [], by simp [tks], by decide, by decide, by decide⟩
    | .bool true => exact ⟨"true", [], by simp [tks], by decide, by decide, by decide⟩
    | .int i =>
      obtain ⟨c, rest, hdata, hall, hc⟩ := intRepr_shape i
      have hh : (intRepr i).data.head? = some c := by rw [hdata]; rfl
      have hid : ∀ x : Char, x ≠ '-' → (x.toNat < 48 ∨ 57 < x.toNat) → c ≠ x := by
        intro x hxm hx
        rcases hc with rfl | hcd
        · exact fun he => hxm he.symm
        · exact isDigitC_ne_of hcd hx
      exact ⟨intRepr i, [], by simp [tks],
        head_ne_string hh (hid ')' (by decide) (by decide)),
        head_ne_string hh (hid ']' (by decide) (by decide)),
        head_ne_string hh (hid rbraceC (by decide) (by decide))⟩
    | .str s0 =>
      by_cases hk : isKw s0 = true
      · have hh : (":" ++ kwBody s0).data.head? = some ':' := rfl
        exact ⟨":" ++ kwBody s0, [], by simp [tks, hk],
          head_ne_string hh (by decide), head_ne_string hh (by decide),
          head_ne_string hh (by decide)⟩
      · have hh : (pr_str_transform s0).data.head? = some dquoteC := rfl
        exact ⟨pr_str_transform s0, [], by simp [tks, hk],
          head_ne_string hh (by decide), head_ne_string hh (by decide),
          head_ne_string hh (by decide)⟩
    | .symbol s0 =>
      have hs : symbolOkB s0 = true := by simpa only [wfB] using h
      obtain ⟨c, rest, hdata, hall, _⟩ := symbolOkB_spec hs
      have hct : tokenChar c = true := by
        have hall2 := hall
        simp only [List.all_cons, Bool.and_eq_true] at hall2
        exact hall2.1
      obtain ⟨_, _, _, hrb, _, hrbr, _, hrp, _, _, _, _⟩ := tokenChar_spec hct
      have hh : s0.data.head? = some c := by rw [hdata]; rfl
      exact ⟨s0, [], by simp [tks], head_ne_string hh hrp, head_ne_string hh hrb,
        head_ne_string hh hrbr⟩
    | .list l m =>
      exact ⟨"(", tksL l ++ [")"], by simp [tks], by decide, by decide, by decide⟩
    | .vector l m =>
      exact ⟨"[", tksL l ++ ["]"], by simp [tks], by decide, by decide, by decide⟩
    | .hashMap ps m =>
      exact ⟨String.mk [lbraceC], tksP ps ++ [String.mk [rbraceC]], by simp [tks],
        by decide, by decide, by decide⟩
    | .function b => simp [wfB] at h
    | .malFunction p a e im => simp [wfB] at h
    | .atom cid => simp [wfB] at h

/-- Helper: a `read_form` step on an atom token with a known `TryFrom`
result. -/
theorem read_atom_step {t : String} {c : Char} (hh : t.data.head? = some c)
    (h1 : c ≠ '(') (h2 : c ≠ ')') (h3 : c ≠ '[') (h4 : c ≠ ']')
    (h5 : c ≠ lbraceC) (h6 : c ≠ rbraceC) (h7 : c ≠ '@') {v : MalType}
    (hT : try_from t = .ok v) (ts : List String) {f : Nat} (hf : 1 ≤ f) :
    readFormF f (t :: ts) = some (.ok (v, ts)) := by
  obtain ⟨f1, rfl⟩ : ∃ f1, f = f1 + 1 := ⟨f - 1, by omega⟩
  rw [readFormF_atom_route hh h1 h2 h3 h4 h5 h6 h7 ts f1, hT]
  rfl

/-- Helper: `read_list` over the token sequences of well-formed
elements accumulates exactly those elements and closes with ample
`wrapSeq` fuel. -/
theorem parse_list {g : Nat}
    (IH : ∀ v, wfB g v = true → ∀ K ts f, (tks v).length ≤ K →
      2 * (tks v).length + K + 1 ≤ f → readFormF f (tks v ++ ts) = some (.ok (v, ts)))
    (endTok : String)
    (he : endTok = ")" ∨ endTok = "]" ∨ endTok = String.mk [rbraceC]) :
    ∀ l : List MalType, l.all (fun x => wfB g x) = true →
      ∀ K : Nat, (∀ x ∈ l, (tks x).length ≤ K) →
      ∀ (acc : List MalType) (ts : List String) (f : Nat),
        2 * (tksL l).length + K + 2 ≤ f →
        ∃ f2, K + 1 ≤ f2 ∧
          readListF f (tksL l ++ endTok :: ts) endTok acc
            = some ((wrapSeq f2 endTok (acc ++ l)).map (fun v => (v, ts))) := by
  intro l
  induction l with
  | nil =>
    intro _ K _ acc ts f hf
    obtain ⟨f2, rfl⟩ : ∃ f2, f = f2 + 1 := ⟨f - 1, by omega⟩
    refine ⟨f2, by omega, ?_⟩
    rw [show tksL ([] : List MalType) = [] by simp [tksL], List.append_nil]
    simp only [List.nil_append]
    unfold readListF
    dsimp only
    rw [if_pos rfl]
  | cons x xs ih =>
    intro hall K hK acc ts f hf
    simp only [List.all_cons, Bool.and_eq_true] at hall
    obtain ⟨t, ts0, htks, hne1, hne2, hne3⟩ := tks_head g x hall.1
    have hlen : (tks x).length = ts0.length + 1 := by rw [htks]; rfl
    have hLlen : (tksL (x :: xs)).length = (tks x).length + (tksL xs).length := by
      rw [show tksL (x :: xs) = tks x ++ tksL xs by simp [tksL]]
      simp [List.length_append]
    obtain ⟨f2, rfl⟩ : ∃ f2, f = f2 + 1 := ⟨f - 1, by omega⟩
    have hne : t ≠ endTok := by
      rcases he with rfl | rfl | rfl
      · exact hne1
      · exact hne2
      · exact hne3
    rw [show tksL (x :: xs) ++ endTok :: ts = t :: (ts0 ++ (tksL xs ++ endTok :: ts)) from by
      rw [show tksL (x :: xs) = tks x ++ tksL xs by simp [tksL], htks]
      simp]
    unfold readListF
    dsimp only
    rw [if_neg hne]
    have hform : readFormF f2 (tks x ++ (tksL xs ++ endTok :: ts))
        = some (.ok (x, tksL xs ++ endTok :: ts)) := by
      apply IH x hall.1 K _ f2 (hK x (List.mem_cons_self _ _))
      omega
    rw [show t :: (ts0 ++ (tksL xs ++ endTok :: ts))
        = tks x ++ (tksL xs ++ endTok :: ts) from by rw [htks]; simp]
    rw [hform]
    dsimp only
    obtain ⟨f3, hf3, heq⟩ := ih hall.2 K (fun y hy => hK y (List.mem_cons_of_mem _ hy))
      (acc ++ [x]) ts f2 (by omega)
    refine ⟨f3, hf3, ?_⟩
    rw [heq]
    simp

/-- Reading back the token sequence of a well-formed value parses
exactly that value, for any fuel above thrice the token count. -/
theorem parse_main : ∀ g v, wfB g v = true → ∀ K ts f, (tks v).length ≤ K →
    2 * (tks v).length + K + 1 ≤ f → readFormF f (tks v ++ ts) = some (.ok (v, ts)) := by
  intro g
  induction g with
  | zero => intro v h; simp [wfB] at h
  | succ g ih =>
    intro v h K ts f hK hf
    match v with
    | .nil =>
      rw [show tks MalType.nil = ["nil"] by simp [tks]] at *
      exact read_atom_step (show ("nil" : String).data.head? = some 'n' from rfl)
        (by decide) (by decide) (by decide) (by decide) (by decide) (by decide) (by decide)
        (show try_from "nil" = .ok MalType.nil from rfl) ts (by omega)
    | .bool false =>
      rw [show tks (.bool false) = ["false"] by simp [tks]] at *
      exact read_atom_step (show ("false" : String).data.head? = some 'f' from rfl)
        (by decide) (by decide) (by decide) (by decide) (by decide) (by decide) (by decide)
        (show try_from "false" = .ok (MalType.bool false) from rfl) ts (by omega)
    | .bool true =>
      rw [show tks (.bool true) = ["true"] by simp [tks]] at *
      exact read_atom_step (show ("true" : String).data.head? = some 't' from rfl)
        (by decide) (by decide) (by decide) (by decide) (by decide) (by decide) (by decide)
        (show try_from "true" = .ok (MalType.bool true) from rfl) ts (by omega)
    | .int i =>
      rw [show tks (.int i) = [intRepr i] by simp [tks]] at *
      obtain ⟨c, rest, hdata, hall, hc⟩ := intRepr_shape i
      have hh : (intRepr i).data.head? = some c := by rw [hdata]; rfl
      have hid : ∀ x : Char, x ≠ '-' → (x.toNat < 48 ∨ 57 < x.toNat) → c ≠ x := by
        intro x hxm hx
        rcases hc with rfl | hcd
        · exact fun he => hxm he.symm
        · exact isDigitC_ne_of hcd hx
      exact read_atom_step hh (hid '(' (by decide) (by decide))
        (hid ')' (by decide) (by decide)) (hid '[' (by decide) (by decide))
        (hid ']' (by decide) (by decide)) (hid lbraceC (by decide) (by decide))
        (hid rbraceC (by decide) (by decide)) (hid '@' (by decide) (by decide))
        (try_from_int i) ts (by omega)
    | .str s0 =>
      by_cases hk : isKw s0 = true
      · have hdat := isKw_data hk
        have hh : (":" ++ kwBody s0).data.head? = some ':' := rfl
        have hT : try_from (":" ++ kwBody s0) = .ok (.str s0) := by
          have h2 := @try_from_kw s0.data.tail
          rw [show (":" ++ kwBody s0) = String.mk (':' :: s0.data.tail) from rfl, h2,
            show String.mk (kwChar :: s0.data.tail) = s0 from by rw [← hdat]]
        rw [show tks (.str s0) = [":" ++ kwBody s0] by simp [tks, hk]] at *
        exact read_atom_step hh (by decide) (by decide) (by decide) (by decide)
          (by decide) (by decide) (by decide) hT ts (by omega)
      · have hh : (pr_str_transform s0).data.head? = some dquoteC := rfl
        have hT : try_from (pr_str_transform s0) = .ok (.str s0) := by
          have h2 := try_from_strtok s0.data
          rw [show pr_str_transform s0
              = String.mk (dquoteC :: (escapeChars s0.data ++ [dquoteC])) from rfl, h2]
        rw [show tks (.str s0) = [pr_str_transform s0] by simp [tks, hk]] at *
        exact read_atom_step hh (by decide) (by decide) (by decide) (by decide)
          (by decide) (by decide) (by decide) hT ts (by omega)
    | .symbol s0 =>
      have hs : symbolOkB s0 = true := by simpa only [wfB] using h
      obtain ⟨c, rest, hdata, hall, hn1, hn2, hn3, hn4⟩ := symbolOkB_spec hs
      have hct : tokenChar c = true := by
        have hall2 := hall
        simp only [List.all_cons, Bool.and_eq_true] at hall2
        exact hall2.1
      obtain ⟨_, _, hlb, hrb, hlbr, hrbr, hlp, hrp, _, _, _, _⟩ := tokenChar_spec hct
      have hh : s0.data.head? = some c := by rw [hdata]; rfl
      rw [show tks (.symbol s0) = [s0] by simp [tks]] at *
      exact read_atom_step hh hlp hrp hlb hrb hlbr hrbr hn3 (try_from_sym hs) ts (by omega)
    | .list l m =>
      simp only [wfB, Bool.and_eq_true] at h
      obtain rfl : m = .nil := isNilM_true h.2
      have hlen : (tks (MalType.list l MalType.nil)).length = (tksL l).length + 2 := by
        rw [show tks (.list l .nil) = "(" :: (tksL l ++ [")"]) by simp [tks]]
        simp
      obtain ⟨f1, rfl⟩ : ∃ f1, f = f1 + 1 := ⟨f - 1, by omega⟩
      rw [show tks (.list l .nil) ++ ts = "(" :: (tksL l ++ (")" :: ts)) from by
        rw [show tks (.list l .nil) = "(" :: (tksL l ++ [")"]) by simp [tks]]
        simp]
      unfold readFormF
      dsimp only
      rw [if_pos rfl]
      have hKel : ∀ x ∈ l, (tks x).length ≤ K := fun x hx => by
        have h1 := tksL_mem_le l hx
        omega
      obtain ⟨f2, hf2, heq⟩ := parse_list ih ")" (Or.inl rfl) l h.1 K hKel [] ts f1 (by omega)
      rw [heq, show wrapSeq f2 ")" ([] ++ l) = Except.ok (MalType.list l MalType.nil) from by
        simp [wrapSeq]]
      rfl
    | .vector l m =>
      simp only [wfB, Bool.and_eq_true] at h
      obtain rfl : m = .nil := isNilM_true h.2
      have hlen : (tks (MalType.vector l MalType.nil)).length = (tksL l).length + 2 := by
        rw [show tks (.vector l .nil) = "[" :: (tksL l ++ ["]"]) by simp [tks]]
        simp
      obtain ⟨f1, rfl⟩ : ∃ f1, f = f1 + 1 := ⟨f - 1, by omega⟩
      rw [show tks (.vector l .nil) ++ ts = "[" :: (tksL l ++ ("]" :: ts)) from by
        rw [show tks (.vector l .nil) = "[" :: (tksL l ++ ["]"]) by simp [tks]]
        simp]
      unfold readFormF
      dsimp only
      rw [if_neg (by decide), if_neg (by decide), if_pos rfl]
      have hKel : ∀ x ∈ l, (tks x).length ≤ K := fun x hx => by
        have h1 := tksL_mem_le l hx
        omega
      obtain ⟨f2, hf2, heq⟩ := parse_list ih "]" (Or.inr (Or.inl rfl)) l h.1 K hKel [] ts f1
        (by omega)
      rw [heq, show wrapSeq f2 "]" ([] ++ l) = Except.ok (MalType.vector l MalType.nil) from by
        simp [wrapSeq]]
      rfl
    | .hashMap ps m =>
      simp only [wfB, Bool.and_eq_true] at h
      obtain rfl : m = .nil := isNilM_true h.2
      have htkP : tksP ps = tksL (flattenPairs ps) := tksP_flatten ps
      have hlen : (tks (MalType.hashMap ps MalType.nil)).length
          = (tksL (flattenPairs ps)).length + 2 := by
        rw [show tks (.hashMap ps .nil)
            = String.mk [lbraceC] :: (tksP ps ++ [String.mk [rbraceC]]) by simp [tks], htkP]
        simp
      obtain ⟨f1, rfl⟩ : ∃ f1, f = f1 + 1 := ⟨f - 1, by omega⟩
      rw [show tks (.hashMap ps .nil) ++ ts
          = String.mk [lbraceC]
            :: (tksL (flattenPairs ps) ++ (String.mk [rbraceC] :: ts)) from by
        rw [show tks (.hashMap ps .nil)
            = String.mk [lbraceC] :: (tksP ps ++ [String.mk [rbraceC]]) by simp [tks], htkP]
        simp]
      unfold readFormF
      dsimp only
      rw [if_neg (by decide), if_neg (by decide), if_neg (by decide), if_neg (by decide),
        if_pos rfl]
      have hKel : ∀ x ∈ flattenPairs ps, (tks x).length ≤ K := fun x hx => by
        have h1 := tksL_mem_le (flattenPairs ps) hx
        omega
      obtain ⟨f2, hf2, heq⟩ := parse_list ih (String.mk [rbraceC]) (Or.inr (Or.inr rfl))
        (flattenPairs ps) (flatten_all_wf ps h.1.1) K hKel [] ts f1 (by omega)
      rw [heq]
      have hcond : ∀ p ∈ ps, depthM p.1 ≤ g + 1 ∧ depthM p.1 ≤ f2 := by
        intro p hp
        have hw := List.all_eq_true.mp h.1.1 p hp
        rw [Bool.and_eq_true] at hw
        refine ⟨wfB_depth g p.1 hw.1, ?_⟩
        have hd2 := depth_le_tks g p.1 hw.1
        have hm := (mem_flatten ps p hp).1
        have h3 := tksL_mem_le (flattenPairs ps) hm
        omega
      have hsorted : sortedKeys f2 ps = true := by
        have hs0 : sortedKeys (g + 1) ps = true := h.1.2
        rw [sortedKeys_irr ps hcond] at hs0
        exact hs0
      rw [show wrapSeq f2 (String.mk [rbraceC]) ([] ++ flattenPairs ps)
          = Except.ok (MalType.hashMap ps MalType.nil) from by
        rw [List.nil_append]
        unfold wrapSeq
        rw [if_neg (by decide), if_neg (by decide), if_pos rfl]
        exact mkHashMap_sorted hsorted]
      rfl
    | .function b => simp [wfB] at h
    | .malFunction p a e im => simp [wfB] at h
    | .atom cid => simp [wfB] at h

/-- Reading back the printed form of a well-formed value is the
identity. -/
theorem read_str_prs {g : Nat} {v : MalType} (h : wfB g v = true) :
    read_str (prs v) = .ok v := by
  unfold read_str
  rw [tokenize_prs h]
  dsimp only
  rw [show (tks v ++ [""]).length = (tks v).length + 1 by simp]
  rw [parse_main g v h ((tks v).length + 1) [""] (8 * ((tks v).length + 1) + 16)
    (by omega) (by omega)]
  rfl

/-- C1: against the claim, `Env::bind` supports no `&` rest marker and
raises no ArityError: the repository's own bootstrap macro
`(defmacro! cond (fn* (& xs) …))` (installed verbatim by `main`,
`step9_try.rs` line 322) crashes the interpreter with an out-of-bounds
panic — not a `MalErr` — as soon as `(cond)` is evaluated, because `bind`
treats `&` as an ordinary parameter name and indexes `exprs[0]` of the
empty argument vector. -/
theorem claim_C1 :
    evalSeq 300
      ["(defmacro! cond (fn* (& xs) (if (> (count xs) 0) (list \x27if (first xs) (if (> (count xs) 1) (nth xs 1) (throw \"odd number of forms to cond\")) (cons \x27cond (rest (rest xs)))))))",
       "(cond)"] rootStore = Out.panic := by
  rfl

/-- C2, counterexample: `(/ 1 0)` does not produce an error result of any
kind (the claim says an ArithmeticError): `impl Div` computes `lhs / rhs`
on `i64`, and Rust division by zero panics, crashing the interpreter. -/
theorem claim_C2_cx :
    isPanic (evalTop "(/ 1 0)") = true ∧ outErr (evalTop "(/ 1 0)") = none := ⟨rfl, rfl⟩

/-- C2, amended: on two integer operands with nonzero divisor, `/`
returns the truncated (toward zero) integer quotient; with divisor `0`
the interpreter crashes with a panic instead of failing with an error
result. -/
theorem claim_C2 :
    (∀ fuel (a b : Int), b ≠ 0 →
      applyBuiltin fuel .div [.int a, .int b] = some (.ok (.int (Int.tdiv a b)))) ∧
    evalTop "(/ 1 0)" = Out.panic := by
  refine ⟨?_, rfl⟩
  intro fuel a b hb
  simp [applyBuiltin, accumulate, divM, hb]

/-- C2, witness: `(/ 7 2)` is `3`. -/
theorem claim_C2_witness :
    applyBuiltin 1 Builtin.div [MalType.int 7, MalType.int 2] =
      some (Except.ok (MalType.int 3)) :=
  claim_C2.1 1 7 2 (by decide)

/-- C3: of the reader macros the claim lists, only `@x` is rewritten
(`read_form`, `reader.rs` lines 80-86).  The tokens `\x27`, backtick,
`~`, `~@` and `^` fall through to `read_atom` and are read as bare
symbols; `\x27x` reads as the symbol `\x27` (with `x` left unconsumed),
not as `(quote x)`. -/
theorem claim_C3 :
    read_str "\x27x" = .ok (.symbol "\x27") ∧
    read_str "`x" = .ok (.symbol "`") ∧
    read_str "~x" = .ok (.symbol "~") ∧
    read_str "~@x" = .ok (.symbol "~@") ∧
    read_str "^m v" = .ok (.symbol "^") ∧
    read_str "@x" = .ok (.list [.symbol "deref", .symbol "x"] .nil) :=
  ⟨rfl, rfl, rfl, rfl, rfl, rfl⟩

/-- C4: `(do e1 … eN)` evaluates the leading forms and tail-calls the
last — `(do 1 2 3)` is `3` — but the empty `(do)` PANICS (the slice
`l[1..l.len() - 1]` is `l[1..0]`, an invalid range) instead of
evaluating to nil as the claim states. -/
theorem claim_C4 :
    evalTop "(do)" = Out.panic ∧ outVal (evalTop "(do 1 2 3)") = some (.int 3) := ⟨rfl, rfl⟩

/-- C5, counterexample: `=` on an atom compared with the very same cell
is `false` — `impl PartialEq` has no `Atom` arm, so atoms fall through to
the catch-all `_ => false`; the claim says same-cell atoms are equal. -/
theorem claim_C5_cx : malEq 2 (.atom 0) (.atom 0) = false := rfl

/-- C5, amended: `=` on two atoms is always `false`: for distinct cells
(even ones holding equal values) and for the same cell alike. -/
theorem claim_C5 : ∀ fuel c d, malEq fuel (.atom c) (.atom d) = false := by
  intro fuel c d
  cases fuel <;> rfl

/-- Helper: `cmpNat` is `lt` exactly for smaller numbers. -/
theorem cmpNat_eq_lt {a b : Nat} : cmpNat a b = .lt ↔ a < b := by
  by_cases h : a < b
  · simp [cmpNat, h]
  · by_cases h2 : b < a <;> simp [cmpNat, h, h2]

/-- Helper: `cmpInt` is `lt` exactly for smaller integers. -/
theorem cmpInt_eq_lt {a b : Int} : cmpInt a b = .lt ↔ a < b := by
  by_cases h : a < b
  · simp [cmpInt, h]
  · by_cases h2 : b < a <;> simp [cmpInt, h, h2]

/-- Helper: `cmpChars` is `lt` exactly for lexicographically smaller
character sequences (Rust byte order on UTF-8 equals code-point order,
which is `List.Lex` over `Char`'s order). -/
theorem cmpChars_eq_lt : ∀ xs ys : List Char, cmpChars xs ys = .lt ↔ List.Lex (· < ·) xs ys := by
  intro xs
  induction xs with
  | nil =>
    intro ys
    cases ys with
    | nil =>
      constructor
      · intro h; simp [cmpChars] at h
      · intro h; exact absurd h (List.Lex.not_nil_right _ _)
    | cons y ys => simp [cmpChars]; exact List.Lex.nil
  | cons x xs ih =>
    intro ys
    cases ys with
    | nil =>
      constructor
      · intro h; simp [cmpChars] at h
      · intro h; exact absurd h (List.Lex.not_nil_right _ _)
    | cons y ys =>
      rcases Nat.lt_trichotomy x.toNat y.toNat with h | h | h
      · have hlt : x < y := h
        refine iff_of_true ?_ (List.Lex.rel hlt)
        simp [cmpChars, cmpNat_eq_lt.mpr h, Ordering.then]
      · have hxy : x = y := Char.ext (UInt32.ext h)
        subst hxy
        have he : cmpNat x.toNat x.toNat = .eq := by simp [cmpNat]
        constructor
        · intro hc
          have : cmpChars xs ys = .lt := by
            simpa [cmpChars, he, Ordering.then] using hc
          exact List.Lex.cons ((ih ys).mp this)
        · intro hlex
          cases hlex with
          | cons htail =>
            simp [cmpChars, he, Ordering.then]
            exact (ih ys).mpr htail
          | rel hr => exact absurd hr (lt_irrefl x)
      · have hgt : cmpNat x.toNat y.toNat = .gt := by
          simp [cmpNat, Nat.lt_asymm h, h]
        constructor
        · intro hc; simp [cmpChars, hgt, Ordering.then] at hc
        · intro hlex
          cases hlex with
          | cons htail => exact absurd h (Nat.lt_irrefl _)
          | rel hr =>
            have : x.toNat < y.toNat := hr
            omega

/-- C6, counterexample: ordering is not restricted to integers and
strings: `(< nil 1)` evaluates to `true` — the derived total `Ord` on
`MalType` orders every pair of variants — where the claim says ordering
is not defined on such values. -/
theorem claim_C6_cx : outVal (evalTop "(< nil 1)") = some (.bool true) := rfl

/-- C6, amended: `<`, `<=`, `>`, `>=` (all four are `compare` with a
`PartialOrd` closure) require exactly two arguments, failing with a
`FunctionErr` otherwise; on two integers the order is numeric and on two
strings it is character-wise lexicographic; but the order is the derived
total `Ord` over all variants (variant index first, then contents), so it
is also defined across every other pair of variants — e.g.
`nil < 1`, `true < ""`, `5 < (symbol a)`. -/
theorem claim_C6 :
    (∀ (args : List MalType) (op : MalType → MalType → Bool), args.length ≠ 2 →
      compare args op = .error (.functionErr "Expected exactly two arguments")) ∧
    (∀ f (a b : Int), cmpM (f+1) (.int a) (.int b) = .lt ↔ a < b) ∧
    (∀ f (s t : String), cmpM (f+1) (.str s) (.str t) = .lt ↔ List.Lex (· < ·) s.data t.data) ∧
    (cmpM 1 .nil (.int 1) = .lt ∧ cmpM 1 (.bool true) (.str "") = .lt ∧
      cmpM 1 (.int 5) (.symbol "a") = .lt) := by
  refine ⟨?_, ?_, ?_, rfl, rfl, rfl⟩
  · intro args op h
    match args with
    | [] => rfl
    | [a] => rfl
    | [a, b] => exact absurd rfl h
    | a :: b :: c :: t => rfl
  · intro f a b
    exact cmpInt_eq_lt
  · intro f s t
    exact cmpChars_eq_lt s.data t.data

/-- C6, witness: arity failure on zero arguments; `1 < 2`. -/
theorem claim_C6_witness :
    compare [] (fun x y => cmpM 1 x y == Ordering.lt) =
      .error (.functionErr "Expected exactly two arguments") ∧
    cmpM 1 (.int 1) (.int 2) = .lt :=
  ⟨claim_C6.1 [] _ (by decide), (claim_C6.2.1 0 1 2).mpr (by decide)⟩

/-- C7, counterexample to the claim as stated: the symbol `1` contains
no function and no atom and prints readably as `1`, yet reading that
back yields the integer 1, not the symbol — so `read(pr-str v) = v`
fails on a function- and atom-free value. -/
theorem claim_C7_cx :
    pr_str 2 rootStore true (.symbol "1") = some "1" ∧
    read_str "1" = .ok (.int 1) ∧ MalType.int 1 ≠ MalType.symbol "1" :=
  ⟨rfl, by rfl, by simp⟩

/-- C7, amended: `read(pr-str v) = v` holds for every well-formed value
`v`: it contains no function and no atom, all metadata is `nil`, every
symbol is a single well-formed token that does not read back as an
integer or a literal, every keyword body is made of token characters,
and every hash-map's pair list is strictly ascending under the derived
order (the `BTreeMap` representation invariant).  On such values
readable printing returns exactly the proof-layer rendering `prs v`
whatever the store, and reading that back returns `v` itself. -/
theorem claim_C7 : ∀ g v, wfB g v = true →
    (∀ st, pr_str g st true v = some (prs v)) ∧ read_str (prs v) = .ok v :=
  fun g v h => ⟨fun st => pr_str_prs g v h st, read_str_prs h⟩

/-- C7, witness: the round trip on a concrete nested map. -/
theorem claim_C7_witness :
    wfB 4 vC7 = true ∧
    ((∀ st, pr_str 4 st true vC7 = some (prs vC7)) ∧ read_str (prs vC7) = .ok vC7) :=
  ⟨rfl, claim_C7 4 vC7 rfl⟩

/-- C8, counterexample: the code detects `unquote` by the head symbol
alone, not by the spec's exact two-element shape: `(unquote 1 2)` maps to
`1` under `quasiquote`, while the claim's transformation (it is not a
two-element `(unquote y)`) folds it to
`(cons (quote unquote) (cons 1 (cons 2 ())))`. -/
theorem claim_C8_cx :
    quasiquoteF 4 (.list [.symbol "unquote", .int 1, .int 2] .nil) = some (.int 1) ∧
    qqSpecF 4 (.list [.symbol "unquote", .int 1, .int 2] .nil) =
      .list [.symbol "cons", .list [.symbol "quote", .symbol "unquote"] .nil,
        .list [.symbol "cons", .int 1,
          .list [.symbol "cons", .int 2, .list [] .nil] .nil] .nil] .nil ∧
    MalType.int 1 ≠
      .list [.symbol "cons", .list [.symbol "quote", .symbol "unquote"] .nil,
        .list [.symbol "cons", .int 1,
          .list [.symbol "cons", .int 2, .list [] .nil] .nil] .nil] .nil :=
  ⟨rfl, rfl, by simp⟩

/-- Helper: a true `headIsSym l name` exposes the head as that symbol. -/
theorem headIsSym_true {l : List MalType} {name : String} (h : headIsSym l name = true) :
    ∃ t, l = .symbol name :: t := by
  match l with
  | [] => simp [headIsSym] at h
  | x :: t =>
    cases x <;> simp [headIsSym] at h
    exact ⟨t, by rw [h]⟩

/-- Helper: a cons of length two is a two-element list. -/
theorem lenTwoTail {α} {x : α} {t : List α} (h : (x :: t).length = 2) : ∃ b, t = [b] := by
  cases t with
  | nil => simp at h
  | cons b t2 =>
    cases t2 with
    | nil => exact ⟨b, rfl⟩
    | cons c t3 => simp at h

/-- Helper: `quasiquote` agrees with the specification's transformation,
and `qq_inner` with the specification's fold, on safe forms. -/
theorem qqAgree : ∀ f,
    (∀ x, qqSafeB f x = true → quasiquoteF f x = some (qqSpecF f x)) ∧
    (∀ l, qqSafeInner f l = true → qqInnerF f l = some (qqFoldSpec f l)) := by
  intro f
  induction f with
  | zero =>
    exact ⟨fun x h => by simp [qqSafeB] at h, fun l h => by simp [qqSafeInner] at h⟩
  | succ f ih =>
    constructor
    · intro x h
      match x with
      | .nil | .bool _ | .int _ | .str _ | .function _ | .malFunction _ _ _ _ | .atom _ => rfl
      | .symbol _ => rfl
      | .hashMap _ _ => rfl
      | .vector l m =>
        have h' : qqSafeInner f l = true := by simpa [qqSafeB] using h
        simp [quasiquoteF, qqSpecF, ih.2 l h']
      | .list l m =>
        by_cases hU : headIsSym l "unquote" = true
        · obtain ⟨t, rfl⟩ := headIsSym_true hU
          have hlen : (MalType.symbol "unquote" :: t).length = 2 := by
            have := h
            simp [qqSafeB, hU] at this
            simpa using this
          obtain ⟨b, rfl⟩ := lenTwoTail hlen
          simp [quasiquoteF, qqSpecF, hU, isUnquotePair, secondOf]
        · have h' : qqSafeInner f l = true := by simpa [qqSafeB, hU] using h
          have hU' : isUnquotePair l = false := by
            match l with
            | [] => rfl
            | [x] => cases x <;> rfl
            | x :: y :: z :: t => cases x <;> rfl
            | [x, y] =>
              cases x <;> simp [isUnquotePair]
              intro hx
              exact hU (by simp [headIsSym, hx])
          simp [quasiquoteF, qqSpecF, hU, hU', ih.2 l h']
    · intro l h
      cases l with
      | nil => rfl
      | cons e rest =>
        cases e
        case list el em =>
          simp only [qqSafeInner, Bool.and_eq_true] at h
          obtain ⟨h1, hrest⟩ := h
          by_cases hS : headIsSym el "splice-unquote" = true
          · obtain ⟨t, rfl⟩ := headIsSym_true hS
            rw [if_pos hS] at h1
            obtain ⟨b, rfl⟩ := lenTwoTail (eq_of_beq h1)
            simp [qqInnerF, qqFoldSpec, hS, isSpliceUnquotePair, spliceArg, ih.2 rest hrest]
          · rw [if_neg hS] at h1
            have hS' : isSpliceUnquotePair (.list el em) = false := by
              match el with
              | [] => rfl
              | [x] => cases x <;> rfl
              | x :: y :: z :: t => cases x <;> rfl
              | [x, y] =>
                cases x <;> simp [isSpliceUnquotePair]
                intro hx
                exact hS (by simp [headIsSym, hx])
            simp [qqInnerF, qqFoldSpec, hS, hS', ih.1 _ h1, ih.2 rest hrest]
        all_goals
          simp only [qqSafeInner, Bool.and_eq_true] at h
          simp [qqInnerF, qqFoldSpec, isSpliceUnquotePair, ih.1 _ h.1, ih.2 _ h.2]

/-- C8, amended: the quasiquote transformation is as the claim describes
it on every form in which each `unquote`/`splice-unquote`-headed list has
exactly the two-element shape; on such forms the code's transformation
(`quasiquoteF`, detecting the markers by head symbol) coincides with the
specification's shape-based transformation `qqSpecF`.  (On other forms
they differ: see the counterexample.) -/
theorem claim_C8 : ∀ f x, qqSafeB f x = true → quasiquoteF f x = some (qqSpecF f x) :=
  fun f x h => (qqAgree f).1 x h

/-- C8, witness: a concrete safe form with both markers. -/
theorem claim_C8_witness :
    qqSafeB 5 (.list [.int 1, .list [.symbol "splice-unquote", .symbol "a"] .nil] .nil) = true ∧
    quasiquoteF 5 (.list [.int 1, .list [.symbol "splice-unquote", .symbol "a"] .nil] .nil) =
      some (qqSpecF 5 (.list [.int 1, .list [.symbol "splice-unquote", .symbol "a"] .nil] .nil)) :=
  ⟨rfl, claim_C8 5 _ rfl⟩

/-- C9: `defmacro!` binds the macro in the wrong environment.  The
destructuring `MalType::MalFunction { …, env, .. }` (`step9_try.rs`
line 113) shadows the evaluation environment, so `env.set` stores the
macro in the closure's captured environment: after
`(defmacro! m (let* (x 1) (fn* (a) a)))` the name `m` lives in the
`let*` environment and looking it up in the REPL environment fails with
SymbolNotFound.  (When the closure was created in the current
environment the two coincide, so a direct `(defmacro! k (fn* …))`
works.) -/
theorem claim_C9 :
    outErr (evalTop "(do (defmacro! m (let* (x 1) (fn* (a) a))) m)") =
      some (.symbolNotFound "m") ∧
    outVal (evalSeq 300 ["(defmacro! k (fn* (a) a))", "(k 9)"] rootStore) =
      some (.int 9) := ⟨rfl, rfl⟩

/-- C10: `count` of a single non-list non-vector argument — nil,
strings, integers, keywords, hash-maps, functions, anything — is the
integer `0`, never an error; for a list or vector it is the element
count. -/
theorem claim_C10 :
    (∀ fuel v, isSeqB v = false → applyBuiltin fuel .countOp [v] = some (.ok (.int 0))) ∧
    (∀ fuel l m, applyBuiltin fuel .countOp [.list l m] = some (.ok (.int l.length))) ∧
    (∀ fuel l m, applyBuiltin fuel .countOp [.vector l m] = some (.ok (.int l.length))) := by
  refine ⟨?_, fun _ _ _ => rfl, fun _ _ _ => rfl⟩
  intro fuel v h
  cases v <;> first
    | rfl
    | simp [isSeqB] at h

/-- C10, witness: `count` of nil is `0`. -/
theorem claim_C10_witness :
    applyBuiltin 1 .countOp [.nil] = some (.ok (.int 0)) :=
  claim_C10.1 1 .nil rfl

end Mal
